import Mathlib

/-! Hesh.h: the DJB2 digest and the chained hash table

A shallow embedding of `src/Hesh.h`.

* Unsigned machine integers (`unsigned long`, `size_t`) are natural numbers
  reduced modulo `2 ^ w`; the width `w` is a parameter, because the source
  leaves it to the platform.
* Whether plain `char` is signed is left to the platform as well, so it is the
  parameter `signedChar`.
* An operation whose C++ evaluation divides by zero (`x % table.size()` on a
  table without buckets) has no defined result: the model returns `none`.
* `double` values are modelled exactly, as dyadic rationals with a 53-bit
  significand and round-to-nearest-even (IEEE 754 binary64).
-/

set_option maxRecDepth 100000
set_option maxHeartbeats 4000000

namespace Hesh

/-! ## Definitions -/

/-- A byte of a `std::string`. -/
abbrev Byte := Fin 256

/-- The value that `hash + c` adds for a `char c` holding the byte `b`, once `c`
is converted to `unsigned long` of width `w`. With an unsigned `char` it is the
byte value; with a signed `char` the bytes 128..255 are the negative values
`b - 256`, and the conversion to an unsigned type reduces them modulo `2 ^ w`. -/
def charToULong (signedChar : Bool) (w : Nat) (b : Byte) : Nat :=
  if signedChar && decide (128 ≤ b.val) then
    (((b.val : Int) - 256) % (2 : Int) ^ w).toNat
  else
    b.val % 2 ^ w

/-- One round of the loop of `hash_djb2`: `hash = ((hash << 5) + hash) + c`, each
operation on `unsigned long` of width `w`. -/
def djb2Step (signedChar : Bool) (w : Nat) (hash : Nat) (c : Byte) : Nat :=
  (((hash * 2 ^ 5) % 2 ^ w + hash) % 2 ^ w + charToULong signedChar w c) % 2 ^ w

/-- The function `hash_djb2` of `Hesh.h`: start from 5381, one round per `char`. -/
def hash_djb2 (signedChar : Bool) (w : Nat) (str : List Byte) : Nat :=
  str.foldl (djb2Step signedChar w) (5381 % 2 ^ w)

/-- The bytes of a string literal made of ASCII characters only (one byte per
character, the character code). -/
def asciiBytes (s : String) : List Byte :=
  s.toList.map (fun ch => Fin.ofNat ch.toNat)

/-! ### Binary64 arithmetic -/

/-- A finite, non-negative `double`: the dyadic rational `num / 2 ^ scale`. -/
structure Dbl where
  num : Nat
  scale : Nat

/-- The loop behind `floorLog2`: halve `x` while it is at least 2, at most `fuel`
times. -/
def floorLog2Loop : Nat → Nat → Nat
  | 0, _ => 0
  | fuel + 1, x => if 2 ≤ x then floorLog2Loop fuel (x / 2) + 1 else 0

/-- The position of the leading bit of `x`: the largest `e` with `2 ^ e ≤ x`
(and 0 for `x = 0`). -/
def floorLog2 (x : Nat) : Nat := floorLog2Loop x x

/-- Rounding of a natural number to 53 significant bits, ties to even: the
rounding that every binary64 operation applies to its exact result. -/
def roundSig53 (x : Nat) : Nat :=
  if x < 2 ^ 53 then x
  else
    let s := floorLog2 x - 52
    let q := x / 2 ^ s
    let r := x % 2 ^ s
    if 2 ^ s < 2 * r ∨ (2 * r = 2 ^ s ∧ q % 2 = 1) then (q + 1) * 2 ^ s else q * 2 ^ s

/-- Conversion of a `size_t` value to `double`. -/
def Dbl.ofSize (n : Nat) : Dbl := ⟨roundSig53 n, 0⟩

/-- The product of two doubles: the exact product of the numerators, rounded. -/
def Dbl.mul (a b : Dbl) : Dbl := ⟨roundSig53 (a.num * b.num), a.scale + b.scale⟩

/-- The quotient `a / b` of two doubles, rounded; `none` when `b` is zero (the
result is then an infinity or a NaN, not a finite number). -/
def Dbl.div (a b : Dbl) : Option Dbl :=
  if b.num = 0 then none
  else
    let n := a.num * 2 ^ b.scale
    let d := b.num * 2 ^ a.scale
    let k := 54 + floorLog2 d
    let q := (n * 2 ^ k) / d
    let rem := (n * 2 ^ k) % d
    if q < 2 ^ 53 then some ⟨q, k⟩
    else
      let s := floorLog2 q - 52
      let m := q / 2 ^ s
      let low := q % 2 ^ s
      if 2 ^ s < 2 * low ∨ (2 * low = 2 ^ s ∧ (0 < rem ∨ m % 2 = 1)) then
        some ⟨(m + 1) * 2 ^ s, k⟩
      else some ⟨m * 2 ^ s, k⟩

/-- Comparison `a <= b` of two doubles. -/
def Dbl.le (a b : Dbl) : Bool := decide (a.num * 2 ^ b.scale ≤ b.num * 2 ^ a.scale)

/-- Comparison `a < b` of two doubles. -/
def Dbl.lt (a b : Dbl) : Bool := decide (a.num * 2 ^ b.scale < b.num * 2 ^ a.scale)

/-- The member `max_load_factor`, always initialised to the literal `0.7`, whose
binary64 value is `6305039478318694 / 2 ^ 53`. -/
def max_load_factor : Dbl := ⟨6305039478318694, 53⟩

/-- The member `min_load_factor`, always initialised to the literal `0.2`, whose
binary64 value is `7205759403792794 / 2 ^ 55`. -/
def min_load_factor : Dbl := ⟨7205759403792794, 55⟩

/-! ### The class `HashTable` -/

/-- The data members of `HashTable<Value, HashFunc>`: the vector of lists
`table`, the hash function and the `size_t` counter `current_size`. The two
load factors are the constants above. -/
structure HashTable (Value : Type) where
  table : List (List Value)
  hash_function : Value → Nat
  current_size : Nat

variable {Value : Type}

/-- Replace the cell `table[index]` by `f table[index]`. -/
def updateCell (f : List Value → List Value) : List (List Value) → Nat → List (List Value)
  | [], _ => []
  | cell :: rest, 0 => f cell :: rest
  | cell :: rest, i + 1 => cell :: updateCell f rest i

/-- The statement `table[index].emplace_back(value)`. -/
def emplace_back (table : List (List Value)) (index : Nat) (value : Value) : List (List Value) :=
  updateCell (fun cell => cell ++ [value]) table index

/-- The constructor `HashTable(size, hash_func)`: `size` empty cells, no element. -/
def HashTable.ctor (size : Nat) (hash_func : Value → Nat) : HashTable Value :=
  { table := List.replicate size [], hash_function := hash_func, current_size := 0 }

/-- The number of cells `table.size()`. -/
def HashTable.capacity (t : HashTable Value) : Nat := t.table.length

/-- The loop shared by `rehash` and `rehash_down`: a new table of `new_size`
empty cells receives every element of every old cell, in order, at the index
`hash_function(elem) % new_size`. The remainder by zero has no defined result. -/
def redistribute (hash_function : Value → Nat) (new_size : Nat) (table : List (List Value)) :
    Option (List (List Value)) :=
  table.foldlM (fun new_table cell =>
    cell.foldlM (fun new_table elem =>
      if new_size = 0 then none
      else some (emplace_back new_table (hash_function elem % new_size) elem)) new_table)
    (List.replicate new_size [])

/-- The method `rehash`: the new size is `table.size() * 2`. -/
def HashTable.rehash (t : HashTable Value) : Option (HashTable Value) :=
  (redistribute t.hash_function (t.table.length * 2) t.table).map
    (fun new_table => { t with table := new_table })

/-- The method `rehash_down`: the new size is `table.size() / 2`. -/
def HashTable.rehash_down (t : HashTable Value) : Option (HashTable Value) :=
  (redistribute t.hash_function (t.table.length / 2) t.table).map
    (fun new_table => { t with table := new_table })

/-- The test `current_size >= table.size() * max_load_factor` of `insert`. -/
def growNeeded (current_size size : Nat) : Bool :=
  Dbl.le (Dbl.mul (Dbl.ofSize size) max_load_factor) (Dbl.ofSize current_size)

/-- The test `current_size < table.size() * min_load_factor` of `remove`. -/
def shrinkNeeded (current_size size : Nat) : Bool :=
  Dbl.lt (Dbl.ofSize current_size) (Dbl.mul (Dbl.ofSize size) min_load_factor)

/-- The method `insert`, with a `size_t` of `w` bits. -/
def HashTable.insert (w : Nat) (t : HashTable Value) (value : Value) : Option (HashTable Value) :=
  (if growNeeded t.current_size t.table.length then t.rehash else some t).bind fun t1 =>
    if t1.table.length = 0 then none
    else
      let index := t1.hash_function value % t1.table.length
      some { t1 with
        table := emplace_back t1.table index value
        current_size := (t1.current_size + 1) % 2 ^ w }

/-- The method `find`: a scan of the cell `hash_function(value) % table.size()`. -/
def HashTable.find [DecidableEq Value] (t : HashTable Value) (value : Value) : Option Bool :=
  if t.table.length = 0 then none
  else
    let index := t.hash_function value % t.table.length
    some ((t.table.getD index []).any (fun elem => decide (elem = value)))

/-- The statement `cell.remove_if(elem == value)` on the cell `table[index]`:
every element equal to `value` leaves the cell. -/
def remove_if [DecidableEq Value] (table : List (List Value)) (index : Nat) (value : Value) :
    List (List Value) :=
  updateCell (fun cell => cell.filter (fun elem => !decide (elem = value))) table index

/-- The method `remove`, with a `size_t` of `w` bits: `remove_if` on the cell,
`current_size--` (which wraps around at zero), then the shrink test. -/
def HashTable.remove [DecidableEq Value] (w : Nat) (t : HashTable Value) (value : Value) :
    Option (HashTable Value) :=
  if t.table.length = 0 then none
  else
    let index := t.hash_function value % t.table.length
    let t1 : HashTable Value :=
      { t with
        table := remove_if t.table index value
        current_size := (t.current_size + 2 ^ w - 1) % 2 ^ w }
    if shrinkNeeded t1.current_size t1.table.length then t1.rehash_down else some t1

/-- The method `size`. -/
def HashTable.size (t : HashTable Value) : Nat := t.current_size

/-- The method `load_factor`: `static_cast<double>(current_size) / table.size()`. -/
def HashTable.load_factor (t : HashTable Value) : Option Dbl :=
  Dbl.div (Dbl.ofSize t.current_size) (Dbl.ofSize t.table.length)

/-- The method `getBucketSize`. -/
def HashTable.getBucketSize (t : HashTable Value) (value : Value) : Option Nat :=
  if t.table.length = 0 then none
  else some (t.table.getD (t.hash_function value % t.table.length) []).length

/-- The method `values`: every element of every cell, in order. -/
def HashTable.values (t : HashTable Value) : List Value :=
  t.table.foldl (fun all_values cell =>
    cell.foldl (fun all_values elem => all_values ++ [elem]) all_values) []

/-- The placement invariant: every element of the cell `i` has index `i`. -/
def Placed (t : HashTable Value) : Prop :=
  ∀ i x, x ∈ t.table.getD i [] → t.hash_function x % t.table.length = i

/-- Membership by a scan of every cell: some element of `values()` is equal to
`value`. -/
def HashTable.storedAnywhere [DecidableEq Value] (t : HashTable Value) (value : Value) : Bool :=
  t.values.any (fun elem => decide (elem = value))

/-- The number of calls of `rehash` made by the inserts of the values, one after
another, starting from the table `t`. -/
def growCount (w : Nat) : List Value → HashTable Value → Nat
  | [], _ => 0
  | value :: rest, t =>
    (if growNeeded t.current_size t.table.length then 1 else 0) +
      (match t.insert w value with
        | some t1 => growCount w rest t1
        | none => 0)

/-- A call of one of the two mutating methods. -/
inductive Op (Value : Type) where
  | insert (value : Value)
  | remove (value : Value)
  deriving DecidableEq

/-- One call on a table. -/
def Op.apply [DecidableEq Value] (w : Nat) (t : HashTable Value) : Op Value → Option (HashTable Value)
  | Op.insert value => t.insert w value
  | Op.remove value => t.remove w value

/-- A sequence of calls, one after another; it has a result only when every call
has one. -/
def run [DecidableEq Value] (w : Nat) : List (Op Value) → HashTable Value → Option (HashTable Value)
  | [], t => some t
  | op :: ops, t => (op.apply w t).bind (run w ops)

/-- Every state along the run, from the initial one to the last, has at least
one cell, and every call has a result. -/
def capacitiesPositive [DecidableEq Value] (w : Nat) : List (Op Value) → HashTable Value → Bool
  | [], t => decide (0 < t.capacity)
  | op :: ops, t =>
    decide (0 < t.capacity) &&
      (match op.apply w t with
        | some t1 => capacitiesPositive w ops t1
        | none => false)

/-- Starting from the counter value `c`, no counter operation of the calls
wraps around with a `size_t` of `w0` bits: each `insert` finds a counter below
`2 ^ w0 - 1`, each `remove` a positive counter below `2 ^ w0`. -/
def countersOk (w0 : Nat) : Nat → List (Op Value) → Bool
  | _, [] => true
  | c, Op.insert _ :: ops => decide (c + 1 < 2 ^ w0) && countersOk w0 (c + 1) ops
  | c, Op.remove _ :: ops => decide (1 ≤ c ∧ c < 2 ^ w0) && countersOk w0 (c - 1) ops

/-! ### Tables with a constant hash function -/

/-- A table of `cap` cells, all empty except the cell `idx`, which holds `cell`. -/
def monoTable (cap idx : Nat) (cell : List Value) : List (List Value) :=
  updateCell (fun _ => cell) (List.replicate cap []) idx

/-- The table with the hash function constantly `k` that is described by its
capacity, the content of the one cell in use and its counter. -/
def monoState (k : Nat) (s : Nat × List Value × Nat) : HashTable Value :=
  { table := monoTable s.1 (k % s.1) s.2.1, hash_function := fun _ => k, current_size := s.2.2 }

/-- What `insert` and `remove` do to such a description (capacity, cell,
counter); a `remove` is followed only from a capacity of at least 2. -/
def monoApply [DecidableEq Value] (w : Nat) (s : Nat × List Value × Nat) :
    Op Value → Option (Nat × List Value × Nat)
  | Op.insert v =>
    if s.1 = 0 then none
    else some (if growNeeded s.2.2 s.1 then s.1 * 2 else s.1, s.2.1 ++ [v], (s.2.2 + 1) % 2 ^ w)
  | Op.remove v =>
    if s.1 < 2 then none
    else some (if shrinkNeeded ((s.2.2 + 2 ^ w - 1) % 2 ^ w) s.1 then s.1 / 2 else s.1,
      s.2.1.filter (fun elem => !decide (elem = v)), (s.2.2 + 2 ^ w - 1) % 2 ^ w)

/-- A sequence of calls on such a description. -/
def monoRun [DecidableEq Value] (w : Nat) :
    List (Op Value) → Nat × List Value × Nat → Option (Nat × List Value × Nat)
  | [], s => some s
  | op :: ops, s => (monoApply w s op).bind (monoRun w ops)

/-- The same call on the image of the value under `f`. -/
def Op.map {α β : Type} (f : α → β) : Op α → Op β
  | Op.insert v => Op.insert (f v)
  | Op.remove v => Op.remove (f v)

/-! ### The smoke test `test()` -/

/-- The table `hashTable` of `test()`: 100 cells, the hash function that returns
42 for every key. -/
def smokeTable : HashTable String := HashTable.ctor 100 (fun _ => 42)

/-- The keys `"value" + std::to_string(i)` for `i` from 3 to 150. -/
def smokeValues : List String := (List.range 148).map (fun i => "value" ++ toString (i + 3))

/-- The first calls of `test()`: two inserts, the removal of `"value1"` and its
second insert. -/
def smokeStart : List (Op String) :=
  [Op.insert "value1", Op.insert "value2", Op.remove "value1", Op.insert "value1"]

/-- The key `"value" + std::to_string(i)`. -/
def valueName (i : Fin 151) : String := "value" ++ toString i.val

/-- The number written after the first five characters of a key. -/
def valueIndex (key : String) : Nat :=
  (key.toList.drop 5).foldl (fun acc ch => acc * 10 + (ch.toNat - 48)) 0

/-- The numbers 3 .. 150 of the two loops of `test()`. -/
def smokeNumbers : List (Fin 151) := (List.range 148).map (fun i => Fin.ofNat (i + 3))

/-- The numbers of the keys of `smokeStart`. -/
def smokeStartNumbers : List (Op (Fin 151)) :=
  [Op.insert 1, Op.insert 2, Op.remove 1, Op.insert 1]

/-! ## Theorems -/

/-! ### Rounding -/

theorem floorLog2Loop_le (fuel : Nat) : ∀ x, 1 ≤ x → 2 ^ floorLog2Loop fuel x ≤ x := by
  induction fuel with
  | zero => intro x hx; simpa [floorLog2Loop] using hx
  | succ n ih =>
    intro x hx
    unfold floorLog2Loop
    by_cases h2 : 2 ≤ x
    · rw [if_pos h2, pow_succ]
      have h := ih (x / 2) (by omega)
      omega
    · rw [if_neg h2]
      simpa using hx

theorem floorLog2Loop_lt (fuel : Nat) : ∀ x, x ≤ fuel → x < 2 ^ (floorLog2Loop fuel x + 1) := by
  induction fuel with
  | zero => intro x hx; simp [floorLog2Loop]; omega
  | succ n ih =>
    intro x hx
    unfold floorLog2Loop
    by_cases h2 : 2 ≤ x
    · rw [if_pos h2, pow_succ]
      have h := ih (x / 2) (by omega)
      omega
    · rw [if_neg h2]
      simp
      omega

/-- The function `floorLog2` brackets its argument between two powers of two. -/
theorem floorLog2_spec (x : Nat) (hx : 1 ≤ x) :
    2 ^ floorLog2 x ≤ x ∧ x < 2 ^ (floorLog2 x + 1) :=
  ⟨floorLog2Loop_le x x hx, floorLog2Loop_lt x x (le_refl x)⟩

/-- Rounding never passes a representable number: if `x ≤ a * 2 ^ k` with `a`
below `2 ^ 53`, the rounded `x` is still at most `a * 2 ^ k`. -/
theorem roundSig53_le (x a k : Nat) (ha : a < 2 ^ 53) (hxy : x ≤ a * 2 ^ k) :
    roundSig53 x ≤ a * 2 ^ k := by
  unfold roundSig53
  by_cases hx : x < 2 ^ 53
  · rw [if_pos hx]; exact hxy
  · rw [if_neg hx]
    have hx53 : 2 ^ 53 ≤ x := Nat.le_of_not_lt hx
    obtain ⟨he1, he2⟩ := floorLog2_spec x (by omega)
    have he : 53 ≤ floorLog2 x := by
      by_contra hcon
      have h1 : floorLog2 x + 1 ≤ 53 := by omega
      have h2 : 2 ^ (floorLog2 x + 1) ≤ 2 ^ 53 := Nat.pow_le_pow_right (by norm_num) h1
      omega
    obtain ⟨s, hs⟩ : ∃ s, floorLog2 x = 52 + s := ⟨floorLog2 x - 52, by omega⟩
    have hsub : floorLog2 x - 52 = s := by omega
    simp only [hsub]
    have hP : 0 < 2 ^ s := by positivity
    have hq : 2 ^ 52 ≤ x / 2 ^ s := by
      rw [Nat.le_div_iff_mul_le hP, ← pow_add, ← hs]
      exact he1
    have hdm : 2 ^ s * (x / 2 ^ s) + x % 2 ^ s = x := Nat.div_add_mod x (2 ^ s)
    have hr : x % 2 ^ s < 2 ^ s := Nat.mod_lt x hP
    by_cases hup : 2 ^ s < 2 * (x % 2 ^ s) ∨ (2 * (x % 2 ^ s) = 2 ^ s ∧ x / 2 ^ s % 2 = 1)
    · rw [if_pos hup]
      have hrpos : 0 < x % 2 ^ s := by
        rcases hup with h | ⟨h, _⟩ <;> omega
      have hlt : 2 ^ s * (x / 2 ^ s) < a * 2 ^ k := by omega
      by_cases hsk : s ≤ k
      · have hk : 2 ^ k = 2 ^ (k - s) * 2 ^ s := by
          rw [← pow_add]; congr 1; omega
        rw [hk, ← Nat.mul_assoc] at hlt ⊢
        rw [Nat.mul_comm (2 ^ s) (x / 2 ^ s)] at hlt
        have hq1 : x / 2 ^ s < a * 2 ^ (k - s) := Nat.lt_of_mul_lt_mul_right hlt
        exact Nat.mul_le_mul_right _ hq1
      · exfalso
        have hk : 2 ^ s = 2 ^ (s - k - 1) * (2 * 2 ^ k) := by
          rw [← pow_succ', ← pow_add]; congr 1; omega
        have hK : 0 < 2 ^ k := by positivity
        have h1 : 2 * 2 ^ k ≤ 2 ^ s := by
          rw [hk]
          exact Nat.le_mul_of_pos_left _ (by positivity)
        have h2 : 2 * 2 ^ k * 2 ^ 52 ≤ 2 ^ s * (x / 2 ^ s) := Nat.mul_le_mul h1 hq
        have h3 : a * 2 ^ k < 2 ^ 53 * 2 ^ k := Nat.mul_lt_mul_of_pos_right ha hK
        have h4 : 2 * 2 ^ k * 2 ^ 52 = 2 ^ 53 * 2 ^ k := by ring
        omega
    · rw [if_neg hup]
      have : x / 2 ^ s * 2 ^ s ≤ x := Nat.div_mul_le_self x (2 ^ s)
      omega

/-- Rounding never goes below a representable number: if `a * 2 ^ k ≤ x` with
`a` below `2 ^ 53`, then `a * 2 ^ k` is at most the rounded `x`. -/
theorem le_roundSig53 (x a k : Nat) (ha : a < 2 ^ 53) (hxy : a * 2 ^ k ≤ x) :
    a * 2 ^ k ≤ roundSig53 x := by
  unfold roundSig53
  by_cases hx : x < 2 ^ 53
  · rw [if_pos hx]; exact hxy
  · rw [if_neg hx]
    have hx53 : 2 ^ 53 ≤ x := Nat.le_of_not_lt hx
    obtain ⟨he1, he2⟩ := floorLog2_spec x (by omega)
    have he : 53 ≤ floorLog2 x := by
      by_contra hcon
      have h1 : floorLog2 x + 1 ≤ 53 := by omega
      have h2 : 2 ^ (floorLog2 x + 1) ≤ 2 ^ 53 := Nat.pow_le_pow_right (by norm_num) h1
      omega
    obtain ⟨s, hs⟩ : ∃ s, floorLog2 x = 52 + s := ⟨floorLog2 x - 52, by omega⟩
    have hsub : floorLog2 x - 52 = s := by omega
    simp only [hsub]
    have hP : 0 < 2 ^ s := by positivity
    have hq : 2 ^ 52 ≤ x / 2 ^ s := by
      rw [Nat.le_div_iff_mul_le hP, ← pow_add, ← hs]
      exact he1
    have hfloor : a * 2 ^ k ≤ x / 2 ^ s * 2 ^ s := by
      by_cases hsk : s ≤ k
      · have hk : 2 ^ k = 2 ^ (k - s) * 2 ^ s := by
          rw [← pow_add]; congr 1; omega
        rw [hk, ← Nat.mul_assoc] at hxy ⊢
        exact Nat.mul_le_mul_right _ ((Nat.le_div_iff_mul_le hP).mpr hxy)
      · have hk : 2 ^ s = 2 ^ (s - k - 1) * (2 * 2 ^ k) := by
          rw [← pow_succ', ← pow_add]; congr 1; omega
        have hK : 0 < 2 ^ k := by positivity
        have h1 : 2 * 2 ^ k ≤ 2 ^ s := by
          rw [hk]
          exact Nat.le_mul_of_pos_left _ (by positivity)
        have h2 : 2 ^ 52 * (2 * 2 ^ k) ≤ x / 2 ^ s * 2 ^ s := Nat.mul_le_mul hq h1
        have h3 : a * 2 ^ k ≤ 2 ^ 53 * 2 ^ k := Nat.mul_le_mul_right _ (Nat.le_of_lt ha)
        have h4 : 2 ^ 52 * (2 * 2 ^ k) = 2 ^ 53 * 2 ^ k := by ring
        omega
    split
    · have : x / 2 ^ s * 2 ^ s ≤ (x / 2 ^ s + 1) * 2 ^ s :=
        Nat.mul_le_mul_right _ (Nat.le_succ _)
      omega
    · exact hfloor

/-- For a capacity of at most `2 ^ 48` the growth test is exact: it holds
exactly when `10 * current_size ≥ 7 * size`. -/
theorem growNeeded_iff (n c : Nat) (hc : c ≤ 2 ^ 48) : growNeeded n c = true ↔ 7 * c ≤ 10 * n := by
  have hc53 : c < 2 ^ 53 := by omega
  have hrc : roundSig53 c = c := by unfold roundSig53; rw [if_pos hc53]
  unfold growNeeded Dbl.le Dbl.mul Dbl.ofSize max_load_factor
  simp only [hrc, decide_eq_true_eq, pow_zero, Nat.mul_one, Nat.zero_add]
  constructor
  · intro h
    by_contra hlt
    have hn : n < 2 ^ 53 := by omega
    have hrn : roundSig53 n = n := by unfold roundSig53; rw [if_pos hn]
    rw [hrn] at h
    have hy := le_roundSig53 (c * 6305039478318694) (16 * n + 1) 49 (by omega) (by omega)
    omega
  · intro h
    have h1 := roundSig53_le (c * 6305039478318694) c 53 hc53 (by omega)
    by_cases hn : n < 2 ^ 53
    · have hrn : roundSig53 n = n := by unfold roundSig53; rw [if_pos hn]
      rw [hrn]
      exact roundSig53_le _ _ _ hn (by omega)
    · have h2 := le_roundSig53 n 1 53 (by norm_num) (by omega)
      have h3 : c * 2 ^ 53 ≤ roundSig53 n * 2 ^ 53 := Nat.mul_le_mul_right _ (by omega)
      omega

/-- The growth test fails on an empty counter, whatever the capacity (not 0). -/
theorem growNeeded_zero (c : Nat) (hc : 0 < c) : growNeeded 0 c = false := by
  have h0 : roundSig53 0 = 0 := by decide
  have h1 := le_roundSig53 c 1 0 (by norm_num) (by simpa using hc)
  have h2 := le_roundSig53 (roundSig53 c * 6305039478318694) 1 0 (by norm_num) (by omega)
  unfold growNeeded Dbl.le Dbl.mul Dbl.ofSize max_load_factor
  simp only [h0, decide_eq_false_iff_not, pow_zero, Nat.mul_one, Nat.zero_add, Nat.zero_mul]
  omega

/-- The shrink test fails on the counter `2 ^ w - 1` that a decrement of 0
leaves, for every capacity that a `size_t` of `w` bits can hold. -/
theorem shrinkNeeded_wrapped (w c : Nat) (hw : 1 ≤ w) (hc : c ≤ 2 ^ w) :
    shrinkNeeded (2 ^ w - 1) c = false := by
  have hpw : 2 ^ w = 2 * 2 ^ (w - 1) := by
    rw [← pow_succ']; congr 1; omega
  have hP : 0 < 2 ^ (w - 1) := by positivity
  have h1 := roundSig53_le c 1 w (by norm_num) (by simpa using hc)
  have h2 : roundSig53 c * 7205759403792794 ≤ 7205759403792794 * 2 ^ w := by
    rw [Nat.mul_comm]
    exact Nat.mul_le_mul_left _ (by simpa using h1)
  have h3 := roundSig53_le _ 7205759403792794 w (by norm_num) h2
  have h4 := le_roundSig53 (2 ^ w - 1) 1 (w - 1) (by norm_num) (by omega)
  unfold shrinkNeeded Dbl.lt Dbl.mul Dbl.ofSize min_load_factor
  simp only [decide_eq_false_iff_not, pow_zero, Nat.mul_one, Nat.zero_add, not_lt]
  have h5 : 7205759403792794 * 2 ^ w ≤ 2 ^ (w - 1) * 2 ^ 55 := by
    rw [hpw]
    have : (7205759403792794 : Nat) * (2 * 2 ^ (w - 1)) = 2 ^ (w - 1) * 14411518807585588 := by ring
    rw [this]
    exact Nat.mul_le_mul_left _ (by norm_num)
  have h6 : 2 ^ (w - 1) * 2 ^ 55 ≤ roundSig53 (2 ^ w - 1) * 2 ^ 55 :=
    Nat.mul_le_mul_right _ (by simpa using h4)
  omega

/-- The growth test holds whenever `current_size ≥ 0.7 * size` in exact
arithmetic (both numbers below `2 ^ 53`, where the conversion to `double` is
exact). -/
theorem growNeeded_of_le (n c : Nat) (hc : c < 2 ^ 53) (hn : n < 2 ^ 53) (h : 7 * c ≤ 10 * n) :
    growNeeded n c = true := by
  have hrc : roundSig53 c = c := by unfold roundSig53; rw [if_pos hc]
  have hrn : roundSig53 n = n := by unfold roundSig53; rw [if_pos hn]
  unfold growNeeded Dbl.le Dbl.mul Dbl.ofSize max_load_factor
  simp only [hrc, hrn, decide_eq_true_eq, pow_zero, Nat.mul_one, Nat.zero_add]
  apply roundSig53_le _ _ _ hn
  omega

/-! ### Cells of the table -/

theorem length_updateCell (f : List Value → List Value) (tb : List (List Value)) (i : Nat) :
    (updateCell f tb i).length = tb.length := by
  induction tb generalizing i with
  | nil => rfl
  | cons c r ih =>
    cases i with
    | zero => rfl
    | succ k => simp [updateCell, ih]

theorem getD_updateCell (f : List Value → List Value) (tb : List (List Value)) (i j : Nat) :
    (updateCell f tb i).getD j []
      = if j = i ∧ i < tb.length then f (tb.getD j []) else tb.getD j [] := by
  induction tb generalizing i j with
  | nil => simp [updateCell]
  | cons c r ih =>
    cases i with
    | zero =>
      cases j with
      | zero => simp [updateCell]
      | succ m => simp [updateCell]
    | succ k =>
      cases j with
      | zero => simp [updateCell]
      | succ m =>
        show (updateCell f r k).getD m [] = _
        rw [ih k m]
        simp

theorem length_emplace_back (tb : List (List Value)) (i : Nat) (x : Value) :
    (emplace_back tb i x).length = tb.length :=
  length_updateCell _ tb i

theorem getD_emplace_back (tb : List (List Value)) (i j : Nat) (x : Value) (hi : i < tb.length) :
    (emplace_back tb i x).getD j [] = tb.getD j [] ++ (if j = i then [x] else []) := by
  unfold emplace_back
  rw [getD_updateCell]
  by_cases h : j = i
  · simp [h, hi]
  · simp [h]

theorem getD_replicate_nil (n j : Nat) :
    (List.replicate n ([] : List Value)).getD j [] = [] := by
  induction n generalizing j with
  | zero => simp
  | succ k ih =>
    cases j with
    | zero => simp [List.replicate_succ]
    | succ m => simp [List.replicate_succ]

/-! ### The redistribution loop -/

theorem pushCell_spec (hash : Value → Nat) (m : Nat) (hm : 0 < m) (cell : List Value) :
    ∀ nt : List (List Value), nt.length = m →
      ∃ nt', cell.foldlM (fun new_table elem =>
          if m = 0 then none else some (emplace_back new_table (hash elem % m) elem)) nt = some nt'
        ∧ nt'.length = m
        ∧ ∀ j, nt'.getD j [] = nt.getD j [] ++ cell.filter (fun x => decide (hash x % m = j)) := by
  induction cell with
  | nil => intro nt hnt; exact ⟨nt, rfl, hnt, by simp⟩
  | cons a l ih =>
    intro nt hnt
    have hm0 : m ≠ 0 := by omega
    have hidx : hash a % m < nt.length := by rw [hnt]; exact Nat.mod_lt _ hm
    obtain ⟨nt', h1, h2, h3⟩ := ih (emplace_back nt (hash a % m) a)
      (by rw [length_emplace_back, hnt])
    refine ⟨nt', ?_, h2, ?_⟩
    · rw [List.foldlM_cons, if_neg hm0]
      exact h1
    · intro j
      rw [h3 j, getD_emplace_back _ _ _ _ hidx, List.filter_cons]
      by_cases hj : hash a % m = j
      · simp [hj]
      · have hj' : ¬ j = hash a % m := fun h => hj h.symm
        simp [hj, hj']

theorem pushCells_spec (hash : Value → Nat) (m : Nat) (hm : 0 < m) (cells : List (List Value)) :
    ∀ nt : List (List Value), nt.length = m →
      ∃ nt', cells.foldlM (fun new_table cell =>
          cell.foldlM (fun new_table elem =>
            if m = 0 then none else some (emplace_back new_table (hash elem % m) elem)) new_table)
          nt = some nt'
        ∧ nt'.length = m
        ∧ ∀ j, nt'.getD j []
            = nt.getD j [] ++ cells.flatten.filter (fun x => decide (hash x % m = j)) := by
  induction cells with
  | nil => intro nt hnt; exact ⟨nt, rfl, hnt, by simp⟩
  | cons c r ih =>
    intro nt hnt
    obtain ⟨n1, a1, a2, a3⟩ := pushCell_spec hash m hm c nt hnt
    obtain ⟨n2, b1, b2, b3⟩ := ih n1 a2
    refine ⟨n2, ?_, b2, ?_⟩
    · simp only [List.foldlM_cons, a1]
      exact b1
    · intro j
      rw [b3 j, a3 j, List.flatten_cons, List.filter_append, List.append_assoc]

/-- With a positive new size the redistribution has a result: `new_size` cells,
the cell `j` holding the old elements of index `j`, in the old order. -/
theorem redistribute_spec (hash : Value → Nat) (m : Nat) (hm : 0 < m) (tb : List (List Value)) :
    ∃ nt, redistribute hash m tb = some nt ∧ nt.length = m
      ∧ ∀ j, nt.getD j [] = tb.flatten.filter (fun x => decide (hash x % m = j)) := by
  obtain ⟨nt, h1, h2, h3⟩ := pushCells_spec hash m hm tb (List.replicate m []) (by simp)
  refine ⟨nt, h1, h2, ?_⟩
  intro j
  rw [h3 j, getD_replicate_nil, List.nil_append]

theorem mem_flatten_of_mem_getD (tb : List (List Value)) (i : Nat) (x : Value)
    (h : x ∈ tb.getD i []) : x ∈ tb.flatten := by
  by_cases hi : i < tb.length
  · rw [List.getD_eq_getElem _ _ hi] at h
    exact List.mem_flatten.mpr ⟨tb[i], List.getElem_mem hi, h⟩
  · rw [List.getD_eq_default _ _ (by omega)] at h
    simp at h

theorem exists_getD_of_mem_flatten (tb : List (List Value)) (x : Value)
    (h : x ∈ tb.flatten) : ∃ i, i < tb.length ∧ x ∈ tb.getD i [] := by
  obtain ⟨c, hc, hx⟩ := List.mem_flatten.mp h
  obtain ⟨i, hi, rfl⟩ := List.getElem_of_mem hc
  exact ⟨i, hi, by rw [List.getD_eq_getElem _ _ hi]; exact hx⟩

theorem pushCells_zero (hash : Value → Nat) (cells : List (List Value)) :
    ∀ nt : List (List Value),
      cells.foldlM (fun new_table cell =>
          cell.foldlM (fun new_table elem =>
            if 0 = 0 then none else some (emplace_back new_table (hash elem % 0) elem)) new_table)
          nt = if cells.flatten.isEmpty then some nt else none := by
  induction cells with
  | nil => intro nt; rfl
  | cons c r ih =>
    intro nt
    cases c with
    | nil =>
      rw [List.foldlM_cons]
      simpa using ih nt
    | cons a l =>
      rw [List.foldlM_cons, List.foldlM_cons]
      simp

/-- With new size zero the redistribution has a result only when there is no
element to place. -/
theorem redistribute_zero (hash : Value → Nat) (tb : List (List Value)) :
    redistribute hash 0 tb = if tb.flatten.isEmpty then some [] else none := by
  unfold redistribute
  rw [pushCells_zero]
  rfl

/-- Whatever the new size, a result of the redistribution has `new_size` cells
and its cell `j` holds the old elements of index `j`, in the old order. -/
theorem redistribute_some (hash : Value → Nat) (m : Nat) (tb nt : List (List Value))
    (h : redistribute hash m tb = some nt) :
    nt.length = m ∧ (m = 0 → tb.flatten = [])
      ∧ ∀ j, nt.getD j [] = tb.flatten.filter (fun x => decide (hash x % m = j)) := by
  rcases Nat.eq_zero_or_pos m with hm | hm
  · subst hm
    rw [redistribute_zero] at h
    by_cases hf : tb.flatten.isEmpty = true
    · rw [if_pos hf] at h
      have hnt : nt = [] := by simpa using h.symm
      have hf' : tb.flatten = [] := List.isEmpty_iff.mp hf
      subst hnt
      exact ⟨rfl, fun _ => hf', fun j => by simp [hf']⟩
    · rw [if_neg hf] at h
      exact absurd h (by simp)
  · obtain ⟨nt', h1, h2, h3⟩ := redistribute_spec hash m hm tb
    rw [h1] at h
    have : nt' = nt := by simpa using h
    subst this
    exact ⟨h2, fun h0 => by omega, h3⟩

/-! ### The methods -/

theorem rehash_spec (t : HashTable Value) (hc : 0 < t.table.length) :
    ∃ t1, t.rehash = some t1 ∧ t1.hash_function = t.hash_function
      ∧ t1.current_size = t.current_size ∧ t1.table.length = t.table.length * 2
      ∧ ∀ j, t1.table.getD j []
          = t.table.flatten.filter (fun x => decide (t.hash_function x % (t.table.length * 2) = j)) := by
  obtain ⟨nt, h1, h2, h3⟩ := redistribute_spec t.hash_function (t.table.length * 2) (by omega) t.table
  exact ⟨{ t with table := nt }, by simp [HashTable.rehash, h1], rfl, rfl, h2, h3⟩

/-- On a table with at least one cell `insert` has a result: the capacity is
doubled exactly when the growth test holds, the counter is incremented modulo
`2 ^ w`, and the cell `j` is the old cell (or, after a growth, the old elements
of index `j`) followed by the value when `j` is the index of the value. -/
theorem insert_spec (w : Nat) (t : HashTable Value) (v : Value) (hc : 0 < t.table.length) :
    ∃ t', t.insert w v = some t' ∧ t'.hash_function = t.hash_function
      ∧ t'.current_size = (t.current_size + 1) % 2 ^ w
      ∧ t'.table.length
          = (if growNeeded t.current_size t.table.length then t.table.length * 2 else t.table.length)
      ∧ ∀ j, t'.table.getD j []
          = (if growNeeded t.current_size t.table.length then
              t.table.flatten.filter (fun x => decide (t.hash_function x % (t.table.length * 2) = j))
             else t.table.getD j [])
            ++ (if j = t.hash_function v % t'.table.length then [v] else []) := by
  by_cases hg : growNeeded t.current_size t.table.length = true
  · obtain ⟨t1, r1, r2, r3, r4, r5⟩ := rehash_spec t hc
    have h0 : ¬ t1.table.length = 0 := by omega
    have hidx : t1.hash_function v % t1.table.length < t1.table.length :=
      Nat.mod_lt _ (by omega)
    refine ⟨{ t1 with
        table := emplace_back t1.table (t1.hash_function v % t1.table.length) v
        current_size := (t1.current_size + 1) % 2 ^ w }, ?_, r2, ?_, ?_, ?_⟩
    · simp [HashTable.insert, hg, r1, h0]
    · simp [r3]
    · simp [hg, length_emplace_back, r4]
    · intro j
      simp only [hg, if_true, length_emplace_back]
      rw [getD_emplace_back _ _ _ _ hidx, r5 j, r2]
  · have h0 : ¬ t.table.length = 0 := by omega
    have hidx : t.hash_function v % t.table.length < t.table.length := Nat.mod_lt _ hc
    refine ⟨{ t with
        table := emplace_back t.table (t.hash_function v % t.table.length) v
        current_size := (t.current_size + 1) % 2 ^ w }, ?_, rfl, rfl, ?_, ?_⟩
    · simp [HashTable.insert, hg, h0]
    · simp [hg, length_emplace_back]
    · intro j
      simp only [hg, length_emplace_back]
      rw [getD_emplace_back _ _ _ _ hidx]
      simp

/-- A result of `insert` comes from a table with at least one cell. -/
theorem insert_some_pos (w : Nat) (t t' : HashTable Value) (v : Value)
    (h : t.insert w v = some t') : 0 < t.table.length := by
  rcases Nat.eq_zero_or_pos t.table.length with h0 | h0
  · exfalso
    have htb : t.table = [] := List.length_eq_zero.mp h0
    unfold HashTable.insert at h
    by_cases hg : growNeeded t.current_size t.table.length = true
    · rw [if_pos hg] at h
      simp [HashTable.rehash, htb, redistribute] at h
    · rw [if_neg hg] at h
      simp [htb] at h
  · exact h0

theorem insert_length_pos (w : Nat) (t t' : HashTable Value) (v : Value)
    (h : t.insert w v = some t') : 0 < t'.table.length := by
  have hc := insert_some_pos w t t' v h
  obtain ⟨t2, r1, _, _, r4, _⟩ := insert_spec w t v hc
  rw [r1] at h
  have : t2 = t' := by simpa using h
  subst this
  rw [r4]
  split <;> omega

theorem run_inserts [DecidableEq Value] (w : Nat) (L : List Value) :
    ∀ t : HashTable Value, 0 < t.table.length → t.current_size + L.length < 2 ^ w →
      ∃ t', run w (L.map Op.insert) t = some t' ∧ t'.hash_function = t.hash_function
        ∧ t'.current_size = t.current_size + L.length ∧ 0 < t'.table.length := by
  induction L with
  | nil => intro t hc _; exact ⟨t, rfl, rfl, rfl, hc⟩
  | cons a l ih =>
    intro t hc hlen
    simp only [List.length_cons] at hlen
    obtain ⟨t1, r1, r2, r3, _, _⟩ := insert_spec w t a hc
    have hpos := insert_length_pos w t t1 a r1
    have hcs : t1.current_size = t.current_size + 1 := by
      rw [r3]; exact Nat.mod_eq_of_lt (by omega)
    obtain ⟨t2, s1, s2, s3, s4⟩ := ih t1 hpos (by omega)
    refine ⟨t2, ?_, by rw [s2, r2], ?_, s4⟩
    · simp only [List.map_cons, run, Op.apply, r1]
      exact s1
    · rw [s3, hcs, List.length_cons]; omega

theorem length_remove_if [DecidableEq Value] (tb : List (List Value)) (i : Nat) (v : Value) :
    (remove_if tb i v).length = tb.length :=
  length_updateCell _ tb i

theorem getD_remove_if [DecidableEq Value] (tb : List (List Value)) (i j : Nat) (v : Value) :
    (remove_if tb i v).getD j []
      = if j = i then (tb.getD j []).filter (fun elem => !decide (elem = v)) else tb.getD j [] := by
  unfold remove_if
  rw [getD_updateCell]
  by_cases h : j = i
  · by_cases hi : i < tb.length
    · simp [h, hi]
    · subst h
      rw [if_neg (fun hh => hi hh.2), if_pos rfl, List.getD_eq_default _ _ (Nat.le_of_not_lt hi)]
      rfl
  · simp [h]

/-- A result of `remove`: the table had a cell, the hash function is kept, the
counter is decremented modulo `2 ^ w`, and the cells are those left by
`remove_if`, redistributed over half as many cells when the shrink test holds. -/
theorem remove_some [DecidableEq Value] (w : Nat) (t t' : HashTable Value) (v : Value)
    (h : t.remove w v = some t') :
    0 < t.table.length ∧ t'.hash_function = t.hash_function
      ∧ t'.current_size = (t.current_size + 2 ^ w - 1) % 2 ^ w
      ∧ (shrinkNeeded ((t.current_size + 2 ^ w - 1) % 2 ^ w) t.table.length = true →
          t'.table.length = t.table.length / 2
          ∧ (t.table.length / 2 = 0 →
              (remove_if t.table (t.hash_function v % t.table.length) v).flatten = [])
          ∧ ∀ j, t'.table.getD j []
              = (remove_if t.table (t.hash_function v % t.table.length) v).flatten.filter
                  (fun x => decide (t.hash_function x % (t.table.length / 2) = j)))
      ∧ (shrinkNeeded ((t.current_size + 2 ^ w - 1) % 2 ^ w) t.table.length = false →
          t'.table = remove_if t.table (t.hash_function v % t.table.length) v) := by
  unfold HashTable.remove at h
  by_cases h0 : t.table.length = 0
  · simp [h0] at h
  · rw [if_neg h0] at h
    simp only [length_remove_if] at h
    by_cases hs : shrinkNeeded ((t.current_size + 2 ^ w - 1) % 2 ^ w) t.table.length = true
    · rw [if_pos hs] at h
      simp only [HashTable.rehash_down, length_remove_if, Option.map_eq_some'] at h
      obtain ⟨nt, hnt, rfl⟩ := h
      obtain ⟨a1, a2, a3⟩ := redistribute_some _ _ _ _ hnt
      exact ⟨by omega, rfl, rfl, fun _ => ⟨a1, a2, a3⟩, fun hf => by rw [hs] at hf; cases hf⟩
    · rw [if_neg hs] at h
      have : t' = _ := (Option.some.inj h).symm
      subst this
      exact ⟨by omega, rfl, rfl, fun ht => absurd ht hs, fun _ => rfl⟩

/-- With at least two cells `remove` has a result. -/
theorem remove_defined [DecidableEq Value] (w : Nat) (t : HashTable Value) (v : Value)
    (hc : 2 ≤ t.table.length) : ∃ t', t.remove w v = some t' := by
  unfold HashTable.remove
  have h0 : ¬ t.table.length = 0 := by omega
  rw [if_neg h0]
  simp only [length_remove_if]
  split
  · obtain ⟨nt, h1, _, _⟩ := redistribute_spec t.hash_function (t.table.length / 2)
      (by omega) (remove_if t.table (t.hash_function v % t.table.length) v)
    exact ⟨{ t with table := nt, current_size := (t.current_size + 2 ^ w - 1) % 2 ^ w },
      by simp [HashTable.rehash_down, length_remove_if, h1]⟩
  · exact ⟨_, rfl⟩

/-! ### A stored value stays findable -/

theorem placed_ctor (c : Nat) (hash : Value → Nat) : Placed (HashTable.ctor c hash) := by
  intro i x hx
  simp [HashTable.ctor, getD_replicate_nil] at hx

theorem placed_insert (w : Nat) (t t' : HashTable Value) (v : Value) (hp : Placed t)
    (h : t.insert w v = some t') : Placed t' := by
  have hc := insert_some_pos w t t' v h
  obtain ⟨t2, r1, r2, _, r4, r5⟩ := insert_spec w t v hc
  rw [r1] at h
  have : t2 = t' := by simpa using h
  subst this
  intro j x hx
  rw [r5 j] at hx
  rw [r2]
  rcases List.mem_append.mp hx with hx | hx
  · by_cases hg : growNeeded t.current_size t.table.length = true
    · rw [if_pos hg] at hx r4
      rw [r4]
      simpa using (List.mem_filter.mp hx).2
    · rw [if_neg hg] at hx r4
      rw [r4]
      exact hp j x hx
  · by_cases hj : j = t.hash_function v % t2.table.length
    · rw [if_pos hj] at hx
      have : x = v := by simpa using hx
      rw [this]
      exact hj.symm
    · rw [if_neg hj] at hx
      simp at hx

theorem mem_remove_if [DecidableEq Value] (tb : List (List Value)) (i j : Nat) (v x : Value)
    (hx : x ∈ (remove_if tb i v).getD j []) : x ∈ tb.getD j [] ∧ (j = i → x ≠ v) := by
  rw [getD_remove_if] at hx
  by_cases hj : j = i
  · rw [if_pos hj] at hx
    have hm := List.mem_filter.mp hx
    exact ⟨hm.1, fun _ => by simpa using hm.2⟩
  · rw [if_neg hj] at hx
    exact ⟨hx, fun e => absurd e hj⟩

theorem placed_remove [DecidableEq Value] (w : Nat) (t t' : HashTable Value) (v : Value)
    (hp : Placed t) (h : t.remove w v = some t') : Placed t' := by
  obtain ⟨_, r2, _, r4, r5⟩ := remove_some w t t' v h
  intro j x hx
  rw [r2]
  cases hs : shrinkNeeded ((t.current_size + 2 ^ w - 1) % 2 ^ w) t.table.length with
  | true =>
    obtain ⟨b1, _, b3⟩ := r4 hs
    rw [b3 j] at hx
    rw [b1]
    simpa using (List.mem_filter.mp hx).2
  | false =>
    rw [r5 hs] at hx ⊢
    rw [length_remove_if]
    exact hp j x (mem_remove_if _ _ _ _ _ hx).1

/-- After `remove(v)` on a table with the placement invariant no cell holds `v`. -/
theorem not_mem_after_remove [DecidableEq Value] (w : Nat) (t t' : HashTable Value) (v : Value)
    (hp : Placed t) (h : t.remove w v = some t') : ∀ j, v ∉ t'.table.getD j [] := by
  obtain ⟨_, _, _, r4, r5⟩ := remove_some w t t' v h
  have hcell : ∀ j, v ∉ (remove_if t.table (t.hash_function v % t.table.length) v).getD j [] := by
    intro j hv
    obtain ⟨a1, a2⟩ := mem_remove_if _ _ _ _ _ hv
    exact a2 (hp j v a1).symm rfl
  intro j hv
  cases hs : shrinkNeeded ((t.current_size + 2 ^ w - 1) % 2 ^ w) t.table.length with
  | true =>
    obtain ⟨_, _, b3⟩ := r4 hs
    rw [b3 j] at hv
    obtain ⟨i, _, hi⟩ := exists_getD_of_mem_flatten _ _ (List.mem_filter.mp hv).1
    exact hcell i hi
  | false =>
    rw [r5 hs] at hv
    exact hcell j hv

theorem reach_invariant [DecidableEq Value] (w : Nat) (ops : List (Op Value)) :
    ∀ t0 t : HashTable Value, Placed t0 → t0.current_size < 2 ^ w → run w ops t0 = some t →
      Placed t ∧ t.current_size < 2 ^ w := by
  induction ops with
  | nil =>
    intro t0 t hp hlt h
    have : t0 = t := by simpa [run] using h
    subst this
    exact ⟨hp, hlt⟩
  | cons op r ih =>
    intro t0 t hp _ h
    simp only [run, Option.bind_eq_some] at h
    obtain ⟨t1, h1, h2⟩ := h
    have hpow : 0 < 2 ^ w := Nat.pos_pow_of_pos w (by norm_num)
    cases op with
    | insert x =>
      change t0.insert w x = some t1 at h1
      have hc := insert_some_pos w t0 t1 x h1
      obtain ⟨t2, r1, _, r3, _, _⟩ := insert_spec w t0 x hc
      have e : t2 = t1 := by rw [r1] at h1; simpa using h1
      subst e
      exact ih t2 t (placed_insert w t0 t2 x hp h1) (by rw [r3]; exact Nat.mod_lt _ hpow) h2
    | remove x =>
      change t0.remove w x = some t1 at h1
      obtain ⟨_, _, r3, _, _⟩ := remove_some w t0 t1 x h1
      exact ih t1 t (placed_remove w t0 t1 x hp h1) (by rw [r3]; exact Nat.mod_lt _ hpow) h2

/-! ### Load factor along a sequence of inserts -/

theorem insert_eq_of_spec (w : Nat) (t t' t2 : HashTable Value) (v : Value)
    (h : t.insert w v = some t') (r1 : t.insert w v = some t2) : t2 = t' := by
  rw [r1] at h
  exact Option.some.inj h

theorem run_inserts_mono [DecidableEq Value] (w : Nat) (L : List Value) :
    ∀ t0 t : HashTable Value, run w (L.map Op.insert) t0 = some t →
      t0.table.length ≤ t.table.length := by
  induction L with
  | nil =>
    intro t0 t h
    have : t0 = t := by simpa [run] using h
    subst this
    exact le_refl _
  | cons a l ih =>
    intro t0 t h
    simp only [List.map_cons, run, Option.bind_eq_some] at h
    obtain ⟨t1, h1, h2⟩ := h
    change t0.insert w a = some t1 at h1
    obtain ⟨t2, r1, _, _, r4, _⟩ := insert_spec w t0 a (insert_some_pos w t0 t1 a h1)
    have e := insert_eq_of_spec w t0 t1 t2 a h1 r1
    subst e
    have h3 := ih t2 t h2
    rw [r4] at h3
    split at h3 <;> omega

/-- Along inserts the counter stays below `0.7 * capacity + 1` (as long as the
capacity is at least 3 and the numbers are exactly representable). -/
theorem run_inserts_load [DecidableEq Value] (w : Nat) (L : List Value) :
    ∀ t0 t : HashTable Value, run w (L.map Op.insert) t0 = some t → t.table.length < 2 ^ 53 →
      3 ≤ t0.table.length → 10 * t0.current_size < 7 * t0.table.length + 10 →
      t0.current_size + L.length < 2 ^ w → t0.current_size + L.length ≤ 2 ^ 53 →
      3 ≤ t.table.length ∧ 10 * t.current_size < 7 * t.table.length + 10
        ∧ t.current_size = t0.current_size + L.length := by
  induction L with
  | nil =>
    intro t0 t h _ h3 hinv _ _
    have : t0 = t := by simpa [run] using h
    subst this
    exact ⟨h3, hinv, rfl⟩
  | cons a l ih =>
    intro t0 t h hfin h3 hinv hw h53
    simp only [List.length_cons] at hw h53
    simp only [List.map_cons, run, Option.bind_eq_some] at h
    obtain ⟨t1, h1, h2⟩ := h
    change t0.insert w a = some t1 at h1
    obtain ⟨t2, r1, _, r3, r4, _⟩ := insert_spec w t0 a (insert_some_pos w t0 t1 a h1)
    have e := insert_eq_of_spec w t0 t1 t2 a h1 r1
    subst e
    have hmono := run_inserts_mono w l t2 t h2
    have hcs : t2.current_size = t0.current_size + 1 := by
      rw [r3]; exact Nat.mod_eq_of_lt (by omega)
    have hstep : 3 ≤ t2.table.length ∧ 10 * t2.current_size < 7 * t2.table.length + 10 := by
      rw [hcs, r4]
      by_cases hg : growNeeded t0.current_size t0.table.length = true
      · rw [if_pos hg]; omega
      · rw [if_neg hg]
        have hlen0 : t0.table.length < 2 ^ 53 := by
          rw [r4, if_neg hg] at hmono; omega
        have hnot : ¬ 7 * t0.table.length ≤ 10 * t0.current_size := fun hle =>
          hg (growNeeded_of_le _ _ hlen0 (by omega) hle)
        omega
    obtain ⟨c1, c2, c3⟩ := ih t2 t h2 hfin hstep.1 hstep.2 (by omega) (by omega)
    exact ⟨c1, c2, by rw [c3, hcs, List.length_cons]; omega⟩

/-! ### Constant hash functions -/

theorem table_ext (tb1 tb2 : List (List Value)) (hlen : tb1.length = tb2.length)
    (h : ∀ j, tb1.getD j [] = tb2.getD j []) : tb1 = tb2 := by
  apply List.ext_getElem hlen
  intro n h1 h2
  have := h n
  rwa [List.getD_eq_getElem _ _ h1, List.getD_eq_getElem _ _ h2] at this

theorem length_monoTable (cap idx : Nat) (cell : List Value) :
    (monoTable cap idx cell).length = cap := by
  simp [monoTable, length_updateCell]

theorem getD_monoTable (cap idx j : Nat) (cell : List Value) :
    (monoTable cap idx cell).getD j [] = if j = idx ∧ idx < cap then cell else [] := by
  unfold monoTable
  rw [getD_updateCell, getD_replicate_nil]
  simp

theorem flatten_updateCell_replicate (cell : List Value) (cap : Nat) :
    ∀ idx, (updateCell (fun _ => cell) (List.replicate cap []) idx).flatten
      = if idx < cap then cell else [] := by
  induction cap with
  | zero => intro idx; simp [updateCell]
  | succ n ih =>
    intro idx
    cases idx with
    | zero => simp [List.replicate_succ, updateCell]
    | succ m => simp [List.replicate_succ, updateCell, ih m]

theorem flatten_monoTable (cap idx : Nat) (cell : List Value) (h : idx < cap) :
    (monoTable cap idx cell).flatten = cell := by
  unfold monoTable
  rw [flatten_updateCell_replicate, if_pos h]

theorem filter_const (b : Bool) (l : List Value) :
    l.filter (fun _ => b) = if b then l else [] := by
  cases b <;> simp

theorem monoState_ctor (c k : Nat) :
    (HashTable.ctor c (fun _ => k) : HashTable Value) = monoState k (c, [], 0) := by
  unfold HashTable.ctor monoState
  congr 1
  apply table_ext
  · simp [length_monoTable]
  · intro j
    rw [getD_monoTable, getD_replicate_nil]
    simp

/-- On a table with a constant hash function `insert` does what `monoApply`
says. -/
theorem mono_insert (w k : Nat) (s s' : Nat × List Value × Nat) (v : Value)
    (h : (if s.1 = 0 then none
      else some (if growNeeded s.2.2 s.1 then s.1 * 2 else s.1, s.2.1 ++ [v],
        (s.2.2 + 1) % 2 ^ w)) = some s') :
    (monoState k s).insert w v = some (monoState k s') := by
  obtain ⟨cap, cell, n⟩ := s
  simp only at h
  by_cases h0 : cap = 0
  · rw [if_pos h0] at h; cases h
  · rw [if_neg h0] at h
    have hs' := (Option.some.inj h).symm
    subst hs'
    have hc : 0 < (monoState k (cap, cell, n)).table.length := by
      simp only [monoState, length_monoTable]; omega
    obtain ⟨t', r1, r2, r3, r4, r5⟩ := insert_spec w (monoState k (cap, cell, n)) v hc
    rw [r1]
    congr 1
    have hlen : (monoState k (cap, cell, n)).table.length = cap := length_monoTable _ _ _
    have hflat : (monoState k (cap, cell, n)).table.flatten = cell :=
      flatten_monoTable _ _ _ (Nat.mod_lt _ (by omega))
    have hcs : (monoState k (cap, cell, n)).current_size = n := rfl
    have hhash : ∀ x, (monoState k (cap, cell, n)).hash_function x = k := fun _ => rfl
    rw [hlen, hcs] at r4
    have htb : t'.table
        = monoTable (if growNeeded n cap = true then cap * 2 else cap)
            (k % (if growNeeded n cap = true then cap * 2 else cap)) (cell ++ [v]) := by
      apply table_ext
      · rw [r4, length_monoTable]
      · intro j
        rw [r5 j, getD_monoTable, hflat, hlen, hcs, r4, hhash v]
        have hpos : 0 < (if growNeeded n cap = true then cap * 2 else cap) := by
          split <;> omega
        have hmod := Nat.mod_lt k hpos
        by_cases hg : growNeeded n cap = true
        · simp only [hg, if_true, hhash] at hmod ⊢
          rw [filter_const]
          by_cases hj : j = k % (cap * 2)
          · simp [hj, hmod]
          · have hj' : ¬ k % (cap * 2) = j := fun e => hj e.symm
            simp [hj, hj']
        · simp only [hg] at hmod ⊢
          have hgd : (monoState k (cap, cell, n)).table.getD j []
              = if j = k % cap ∧ k % cap < cap then cell else [] := getD_monoTable _ _ _ _
          rw [hgd]
          have hmodc : k % cap < cap := Nat.mod_lt _ (by omega)
          by_cases hj : j = k % cap
          · simp [hj, hmodc]
          · simp [hj]
    obtain ⟨tb, hf, cs⟩ := t'
    simp only at htb r2 r3
    subst htb r2 r3
    rfl

/-- On a table with a constant hash function and at least 2 cells `remove` does
what `monoApply` says. -/
theorem mono_remove [DecidableEq Value] (w k : Nat) (s s' : Nat × List Value × Nat) (v : Value)
    (h : (if s.1 < 2 then none
      else some (if shrinkNeeded ((s.2.2 + 2 ^ w - 1) % 2 ^ w) s.1 then s.1 / 2 else s.1,
        s.2.1.filter (fun elem => !decide (elem = v)), (s.2.2 + 2 ^ w - 1) % 2 ^ w)) = some s') :
    (monoState k s).remove w v = some (monoState k s') := by
  obtain ⟨cap, cell, n⟩ := s
  simp only at h
  by_cases h0 : cap < 2
  · rw [if_pos h0] at h; cases h
  · rw [if_neg h0] at h
    have hs' := (Option.some.inj h).symm
    subst hs'
    have hlen : (monoState k (cap, cell, n)).table.length = cap := length_monoTable _ _ _
    have hcs : (monoState k (cap, cell, n)).current_size = n := rfl
    have hhash : ∀ x, (monoState k (cap, cell, n)).hash_function x = k := fun _ => rfl
    obtain ⟨t', ht'⟩ := remove_defined w (monoState k (cap, cell, n)) v (by rw [hlen]; omega)
    obtain ⟨_, r2, r3, r4, r5⟩ := remove_some w (monoState k (cap, cell, n)) t' v ht'
    rw [ht']
    congr 1
    rw [hlen, hcs, hhash v] at r4 r5
    rw [hcs] at r3
    have hmod : k % cap < cap := Nat.mod_lt _ (by omega)
    have hrem : remove_if (monoState k (cap, cell, n)).table (k % cap) v
        = monoTable cap (k % cap) (cell.filter (fun elem => !decide (elem = v))) := by
      apply table_ext
      · rw [length_remove_if, hlen, length_monoTable]
      · intro j
        have hgd : (monoState k (cap, cell, n)).table.getD j []
            = if j = k % cap ∧ k % cap < cap then cell else [] := getD_monoTable _ _ _ _
        rw [getD_remove_if, getD_monoTable, hgd]
        by_cases hj : j = k % cap
        · simp [hj, hmod]
        · simp [hj]
    rw [hrem] at r4 r5
    have htb : t'.table
        = monoTable (if shrinkNeeded ((n + 2 ^ w - 1) % 2 ^ w) cap = true then cap / 2 else cap)
            (k % (if shrinkNeeded ((n + 2 ^ w - 1) % 2 ^ w) cap = true then cap / 2 else cap))
            (cell.filter (fun elem => !decide (elem = v))) := by
      cases hs : shrinkNeeded ((n + 2 ^ w - 1) % 2 ^ w) cap with
      | true =>
        obtain ⟨b1, _, b3⟩ := r4 hs
        simp only [if_true]
        have hmod2 : k % (cap / 2) < cap / 2 := Nat.mod_lt _ (by omega)
        apply table_ext
        · rw [b1, length_monoTable]
        · intro j
          rw [b3 j, getD_monoTable, flatten_monoTable _ _ _ hmod]
          simp only [hhash]
          rw [filter_const]
          by_cases hj : j = k % (cap / 2)
          · simp [hj, hmod2]
          · have hj' : ¬ k % (cap / 2) = j := fun e => hj e.symm
            simp [hj, hj']
      | false =>
        simp only [Bool.false_eq_true, if_false]
        exact r5 hs
    obtain ⟨tb, hf, cs⟩ := t'
    simp only at htb r2 r3
    subst htb r2 r3
    rfl

/-- A run of the description is a run of the table it describes. -/
theorem mono_run [DecidableEq Value] (w k : Nat) (ops : List (Op Value)) :
    ∀ s s' : Nat × List Value × Nat, monoRun w ops s = some s' →
      run w ops (monoState k s) = some (monoState k s') := by
  induction ops with
  | nil =>
    intro s s' h
    have : s = s' := by simpa [monoRun] using h
    subst this
    rfl
  | cons op r ih =>
    intro s s' h
    simp only [monoRun, Option.bind_eq_some] at h
    obtain ⟨s1, h1, h2⟩ := h
    have ha : op.apply w (monoState k s) = some (monoState k s1) := by
      cases op with
      | insert v => exact mono_insert w k s s1 v h1
      | remove v => exact mono_remove w k s s1 v h1
    simp only [run, ha, Option.some_bind]
    exact ih s1 s' h2

/-- Renaming the values by an injective function renames the run. -/
theorem monoRun_map {α β : Type} [DecidableEq α] [DecidableEq β] (f : α → β)
    (hf : Function.Injective f) (w : Nat) (ops : List (Op α)) :
    ∀ s : Nat × List α × Nat,
      monoRun w (ops.map (Op.map f)) (s.1, s.2.1.map f, s.2.2)
        = (monoRun w ops s).map (fun r => (r.1, r.2.1.map f, r.2.2)) := by
  induction ops with
  | nil => intro s; rfl
  | cons op r ih =>
    intro s
    obtain ⟨cap, cell, n⟩ := s
    cases op with
    | insert v =>
      simp only [List.map_cons, Op.map, monoRun, monoApply]
      by_cases h0 : cap = 0
      · simp [h0]
      · simp only [h0, if_false, Option.some_bind]
        have := ih (if growNeeded n cap then cap * 2 else cap, cell ++ [v], (n + 1) % 2 ^ w)
        simpa using this
    | remove v =>
      simp only [List.map_cons, Op.map, monoRun, monoApply]
      by_cases h0 : cap < 2
      · simp [h0]
      · simp only [h0, if_false, Option.some_bind]
        have hfil : (cell.map f).filter (fun elem => !decide (elem = f v))
            = (cell.filter (fun elem => !decide (elem = v))).map f := by
          rw [List.filter_map]
          congr 1
          apply List.filter_congr
          intro x _
          simp [hf.eq_iff]
        rw [hfil]
        exact ih (if shrinkNeeded ((n + 2 ^ w - 1) % 2 ^ w) cap then cap / 2 else cap,
          cell.filter (fun elem => !decide (elem = v)), (n + 2 ^ w - 1) % 2 ^ w)

/-- With a constant hash function, a run on renamed values ends with the
capacity and the counter of the run of the description. -/
theorem run_of_monoRun {α β : Type} [DecidableEq α] [DecidableEq β] (f : α → β)
    (hf : Function.Injective f) (w k c cap n : Nat) (ops : List (Op α))
    (h : (monoRun w ops (c, [], 0)).map (fun r => (r.1, r.2.2)) = some (cap, n)) :
    ∃ t, run w (ops.map (Op.map f)) (HashTable.ctor c (fun _ => k)) = some t
      ∧ t.table.length = cap ∧ t.current_size = n := by
  cases hr : monoRun w ops (c, [], 0) with
  | none => rw [hr] at h; cases h
  | some r =>
    rw [hr] at h
    simp only [Option.map_some', Option.some.injEq, Prod.mk.injEq] at h
    have hm := monoRun_map f hf w ops (c, [], 0)
    rw [hr] at hm
    simp only [List.map_nil, Option.map_some'] at hm
    refine ⟨monoState k (r.1, r.2.1.map f, r.2.2), ?_, ?_, ?_⟩
    · rw [monoState_ctor]
      exact mono_run w k _ _ _ hm
    · rw [← h.1]; exact length_monoTable _ _ _
    · rw [← h.2]; rfl

theorem valueName_injective : Function.Injective valueName := by
  have h : ∀ i : Fin 151, valueIndex (valueName i) = i.val := by decide!
  intro a b hab
  apply Fin.ext
  rw [← h a, ← h b, hab]

/-! ### Independence of the width of `size_t` -/

theorem insert_width (w0 w : Nat) (hw : w0 ≤ w) (t : HashTable Value) (v : Value)
    (h : t.current_size + 1 < 2 ^ w0) : t.insert w v = t.insert w0 v := by
  have hpow : 2 ^ w0 ≤ 2 ^ w := Nat.pow_le_pow_right (by norm_num) hw
  have e1 : (t.current_size + 1) % 2 ^ w = t.current_size + 1 := Nat.mod_eq_of_lt (by omega)
  have e2 : (t.current_size + 1) % 2 ^ w0 = t.current_size + 1 := Nat.mod_eq_of_lt h
  simp only [HashTable.insert]
  cases hg : growNeeded t.current_size t.table.length with
  | false => simp [e1, e2]
  | true =>
    simp only [if_true, HashTable.rehash]
    cases redistribute t.hash_function (t.table.length * 2) t.table with
    | none => rfl
    | some nt => simp [e1, e2]

theorem decrement_eq (n u : Nat) (h1 : 1 ≤ n) (hu : n < 2 ^ u) :
    (n + 2 ^ u - 1) % 2 ^ u = n - 1 := by
  have e0 : n + 2 ^ u - 1 = (n - 1) + 2 ^ u := by omega
  rw [e0, Nat.add_mod_right]
  exact Nat.mod_eq_of_lt (by omega)

theorem remove_width [DecidableEq Value] (w0 w : Nat) (hw : w0 ≤ w) (t : HashTable Value)
    (v : Value) (h1 : 1 ≤ t.current_size) (h : t.current_size < 2 ^ w0) :
    t.remove w v = t.remove w0 v := by
  have hpow : 2 ^ w0 ≤ 2 ^ w := Nat.pow_le_pow_right (by norm_num) hw
  simp only [HashTable.remove, decrement_eq _ w h1 (by omega), decrement_eq _ w0 h1 h]

/-- A run whose counter operations do not wrap with `w0` bits is the same run
with any wider `size_t`. -/
theorem run_width [DecidableEq Value] (w0 w : Nat) (hw : w0 ≤ w) (ops : List (Op Value)) :
    ∀ t : HashTable Value, countersOk w0 t.current_size ops = true →
      run w ops t = run w0 ops t := by
  induction ops with
  | nil => intro t _; rfl
  | cons op r ih =>
    intro t h
    cases op with
    | insert v =>
      simp only [countersOk, Bool.and_eq_true, decide_eq_true_eq] at h
      simp only [run, Op.apply, insert_width w0 w hw t v h.1]
      cases hr : t.insert w0 v with
      | none => rfl
      | some t1 =>
        obtain ⟨t2, r1, _, r3, _, _⟩ := insert_spec w0 t v (insert_some_pos w0 t t1 v hr)
        have e := insert_eq_of_spec w0 t t1 t2 v hr r1
        subst e
        have hcs : t2.current_size = t.current_size + 1 := by
          rw [r3]; exact Nat.mod_eq_of_lt h.1
        have h2 := h.2
        rw [← hcs] at h2
        simpa using ih t2 h2
    | remove v =>
      simp only [countersOk, Bool.and_eq_true, decide_eq_true_eq] at h
      simp only [run, Op.apply, remove_width w0 w hw t v h.1.1 h.1.2]
      cases hr : t.remove w0 v with
      | none => rfl
      | some t1 =>
        obtain ⟨_, _, r3, _, _⟩ := remove_some w0 t t1 v hr
        have hcs : t1.current_size = t.current_size - 1 := by
          rw [r3]; exact decrement_eq _ w0 h.1.1 h.1.2
        have h2 := h.2
        rw [← hcs] at h2
        simpa using ih t1 h2

theorem countersOk_prefix (w0 : Nat) (l1 l2 : List (Op Value)) :
    ∀ c, countersOk w0 c (l1 ++ l2) = true → countersOk w0 c l1 = true := by
  induction l1 with
  | nil => intro c _; rfl
  | cons op r ih =>
    intro c h
    cases op with
    | insert v =>
      simp only [List.cons_append, countersOk, Bool.and_eq_true] at h ⊢
      exact ⟨h.1, ih _ h.2⟩
    | remove v =>
      simp only [List.cons_append, countersOk, Bool.and_eq_true] at h ⊢
      exact ⟨h.1, ih _ h.2⟩

/-- A run that has a result with at least one cell went through states with at
least one cell only. -/
theorem capacitiesPositive_of_run [DecidableEq Value] (w : Nat) (ops : List (Op Value)) :
    ∀ t t' : HashTable Value, run w ops t = some t' → 0 < t'.capacity →
      capacitiesPositive w ops t = true := by
  induction ops with
  | nil =>
    intro t t' h hpos
    have : t = t' := by simpa [run] using h
    subst this
    simpa [capacitiesPositive] using hpos
  | cons op r ih =>
    intro t t' h hpos
    simp only [run, Option.bind_eq_some] at h
    obtain ⟨t1, h1, h2⟩ := h
    have hcap : 0 < t.capacity := by
      cases op with
      | insert v => exact insert_some_pos w t t1 v h1
      | remove v => exact (remove_some w t t1 v h1).1
    simp only [capacitiesPositive, h1, Bool.and_eq_true, decide_eq_true_eq]
    exact ⟨hcap, ih t1 t' h2 hpos⟩

/-! ### Stored values -/

theorem foldl_push (cell acc : List Value) :
    cell.foldl (fun all_values elem => all_values ++ [elem]) acc = acc ++ cell := by
  induction cell generalizing acc with
  | nil => simp
  | cons a l ih => simp [List.foldl_cons, ih]

theorem foldl_cells (tb : List (List Value)) (acc : List Value) :
    tb.foldl (fun all_values cell =>
        cell.foldl (fun all_values elem => all_values ++ [elem]) all_values) acc
      = acc ++ tb.flatten := by
  induction tb generalizing acc with
  | nil => simp
  | cons c r ih =>
    rw [List.foldl_cons, foldl_push, ih (acc ++ c), List.flatten_cons, List.append_assoc]

/-- The method `values` returns the cells one after another. -/
theorem values_eq_flatten (t : HashTable Value) : t.values = t.table.flatten := by
  unfold HashTable.values
  rw [foldl_cells]
  rfl

/-- With the placement invariant, `find` scans the only cell that can hold the
value, so it decides membership in the whole table. -/
theorem find_eq_mem [DecidableEq Value] (t : HashTable Value) (v : Value)
    (hc : 0 < t.table.length) (hp : Placed t) :
    t.find v = some (decide (v ∈ t.values)) := by
  have h0 : ¬ t.table.length = 0 := by omega
  unfold HashTable.find
  rw [if_neg h0, values_eq_flatten]
  simp only [Option.some.injEq]
  by_cases hm : v ∈ t.table.flatten
  · obtain ⟨i, _, hi⟩ := exists_getD_of_mem_flatten _ _ hm
    have hidx := hp i v hi
    rw [hidx]
    simp only [hm, decide_True, List.any_eq_true, decide_eq_true_eq]
    exact ⟨v, hi, rfl⟩
  · simp only [hm, decide_False, List.any_eq_false, decide_eq_true_eq]
    intro x hx e
    subst e
    exact hm (mem_flatten_of_mem_getD _ _ _ hx)

/-! ### The redistribution keeps the elements -/

theorem flatten_updateCell_push (x : Value) (tb : List (List Value)) :
    ∀ i, i < tb.length →
      (updateCell (fun cell => cell ++ [x]) tb i).flatten.Perm (tb.flatten ++ [x]) := by
  induction tb with
  | nil => intro i hi; simp at hi
  | cons c r ih =>
    intro i hi
    cases i with
    | zero =>
      simp only [updateCell, List.flatten_cons, List.append_assoc]
      exact List.Perm.append_left c (List.perm_append_comm)
    | succ k =>
      simp only [updateCell, List.flatten_cons, List.append_assoc]
      exact List.Perm.append_left c (ih k (by simpa using hi))

theorem pushCell_perm (hash : Value → Nat) (m : Nat) (hm : 0 < m) (cell : List Value) :
    ∀ nt nt' : List (List Value), nt.length = m →
      cell.foldlM (fun new_table elem =>
          if m = 0 then none else some (emplace_back new_table (hash elem % m) elem)) nt = some nt' →
      nt'.flatten.Perm (nt.flatten ++ cell) := by
  induction cell with
  | nil =>
    intro nt nt' _ h
    have : nt = nt' := by simpa using h
    subst this
    simp
  | cons a l ih =>
    intro nt nt' hnt h
    have hm0 : m ≠ 0 := by omega
    rw [List.foldlM_cons, if_neg hm0] at h
    have hidx : hash a % m < nt.length := by rw [hnt]; exact Nat.mod_lt _ hm
    have h1 := ih (emplace_back nt (hash a % m) a) nt' (by rw [length_emplace_back, hnt]) h
    have h2 : (emplace_back nt (hash a % m) a).flatten.Perm (nt.flatten ++ [a]) :=
      flatten_updateCell_push a nt _ hidx
    have h3 : ((emplace_back nt (hash a % m) a).flatten ++ l).Perm ((nt.flatten ++ [a]) ++ l) :=
      List.Perm.append_right l h2
    have h4 : (nt.flatten ++ [a]) ++ l = nt.flatten ++ a :: l := by simp
    rw [h4] at h3
    exact h1.trans h3

theorem pushCells_perm (hash : Value → Nat) (m : Nat) (hm : 0 < m) (cells : List (List Value)) :
    ∀ nt nt' : List (List Value), nt.length = m →
      cells.foldlM (fun new_table cell =>
          cell.foldlM (fun new_table elem =>
            if m = 0 then none else some (emplace_back new_table (hash elem % m) elem)) new_table)
          nt = some nt' →
      nt'.flatten.Perm (nt.flatten ++ cells.flatten) := by
  induction cells with
  | nil =>
    intro nt nt' _ h
    have : nt = nt' := by simpa using h
    subst this
    simp
  | cons c r ih =>
    intro nt nt' hnt h
    obtain ⟨n1, a1, a2, _⟩ := pushCell_spec hash m hm c nt hnt
    rw [List.foldlM_cons, a1] at h
    have h1 := ih n1 nt' a2 h
    have h2 := pushCell_perm hash m hm c nt n1 hnt a1
    have h3 : (n1.flatten ++ r.flatten).Perm ((nt.flatten ++ c) ++ r.flatten) :=
      List.Perm.append_right _ h2
    have h4 : (nt.flatten ++ c) ++ r.flatten = nt.flatten ++ (c :: r).flatten := by simp
    rw [h4] at h3
    exact h1.trans h3

/-- A result of the redistribution holds the same elements, with the same
multiplicities, as the old table. -/
theorem redistribute_perm (hash : Value → Nat) (m : Nat) (tb nt : List (List Value))
    (h : redistribute hash m tb = some nt) : nt.flatten.Perm tb.flatten := by
  rcases Nat.eq_zero_or_pos m with hm | hm
  · obtain ⟨a1, a2, _⟩ := redistribute_some hash m tb nt h
    have hnt : nt = [] := List.length_eq_zero.mp (by rw [a1, hm])
    rw [hnt, a2 hm]
    simp
  · have h1 := pushCells_perm hash m hm tb (List.replicate m []) nt (by simp) h
    have h2 : (List.replicate m ([] : List Value)).flatten = [] := by
      induction m with
      | zero => rfl
      | succ k _ => simp [List.replicate_succ]
    rw [h2, List.nil_append] at h1
    exact h1

/-- Every result of the redistribution satisfies the placement invariant. -/
theorem placed_of_redistribute (t t' : HashTable Value) (m : Nat)
    (h : redistribute t.hash_function m t.table = some t'.table)
    (hh : t'.hash_function = t.hash_function) : Placed t' := by
  obtain ⟨a1, _, a3⟩ := redistribute_some _ _ _ _ h
  intro j x hx
  rw [a3 j] at hx
  rw [hh, a1]
  simpa using (List.mem_filter.mp hx).2

theorem placed_rehash (t t' : HashTable Value) (h : t.rehash = some t') : Placed t' := by
  simp only [HashTable.rehash, Option.map_eq_some'] at h
  obtain ⟨nt, hnt, rfl⟩ := h
  exact placed_of_redistribute t _ _ hnt rfl

theorem placed_rehash_down (t t' : HashTable Value) (h : t.rehash_down = some t') : Placed t' := by
  simp only [HashTable.rehash_down, Option.map_eq_some'] at h
  obtain ⟨nt, hnt, rfl⟩ := h
  exact placed_of_redistribute t _ _ hnt rfl

theorem run_hash_function [DecidableEq Value] (w : Nat) (ops : List (Op Value)) :
    ∀ t0 t : HashTable Value, run w ops t0 = some t → t.hash_function = t0.hash_function := by
  induction ops with
  | nil =>
    intro t0 t h
    have : t0 = t := by simpa [run] using h
    subst this
    rfl
  | cons op r ih =>
    intro t0 t h
    simp only [run, Option.bind_eq_some] at h
    obtain ⟨t1, h1, h2⟩ := h
    rw [ih t1 t h2]
    cases op with
    | insert x =>
      change t0.insert w x = some t1 at h1
      obtain ⟨t2, r1, r2, _, _, _⟩ := insert_spec w t0 x (insert_some_pos w t0 t1 x h1)
      have e := insert_eq_of_spec w t0 t1 t2 x h1 r1
      subst e
      exact r2
    | remove x =>
      change t0.remove w x = some t1 at h1
      exact (remove_some w t0 t1 x h1).2.1

theorem monoRun_inserts [DecidableEq Value] (w : Nat) (L : List Value) :
    ∀ s : Nat × List Value × Nat, 0 < s.1 →
      ∃ cap n, monoRun w (L.map Op.insert) s = some (cap, s.2.1 ++ L, n) ∧ 0 < cap := by
  induction L with
  | nil =>
    intro s hs
    exact ⟨s.1, s.2.2, by simp [monoRun], hs⟩
  | cons a l ih =>
    intro s hs
    obtain ⟨cap, cell, n⟩ := s
    have h0 : ¬ cap = 0 := by
      have : 0 < cap := hs
      omega
    have hpos : 0 < (if growNeeded n cap = true then cap * 2 else cap) := by
      have : 0 < cap := hs
      split <;> omega
    obtain ⟨cap', n', h1, h2⟩ := ih
      (if growNeeded n cap = true then cap * 2 else cap, cell ++ [a], (n + 1) % 2 ^ w) hpos
    refine ⟨cap', n', ?_, h2⟩
    simp only [List.map_cons, monoRun, monoApply, h0, if_false, Option.some_bind]
    rw [h1]
    simp

/-- The placement invariant only has to be checked on the cells that exist. -/
theorem placed_of_cells (t : HashTable Value)
    (h : ∀ i < t.table.length, ∀ x ∈ t.table.getD i [], t.hash_function x % t.table.length = i) :
    Placed t := by
  intro i x hx
  by_cases hi : i < t.table.length
  · exact h i hi x hx
  · rw [List.getD_eq_default _ _ (Nat.le_of_not_lt hi)] at hx
    simp at hx

/-! ### Cells as filters -/

theorem getD_map_filter (p : Value → Bool) (tb : List (List Value)) (j : Nat) :
    (tb.map (List.filter p)).getD j [] = (tb.getD j []).filter p := by
  have h := List.getD_map tb ([] : List Value) (n := j) (List.filter p)
  simpa using h

/-- On a table whose elements sit in the cell given by `g`, a filter that
selects elements of one cell only needs that cell. -/
theorem filter_flatten_placed (tb : List (List Value)) (g : Value → Nat) (p : Value → Bool)
    (i0 : Nat) (hi0 : i0 < tb.length) (hg : ∀ i x, x ∈ tb.getD i [] → g x = i)
    (hp : ∀ x, p x = true → g x = i0) :
    tb.flatten.filter p = (tb.getD i0 []).filter p := by
  rw [List.filter_flatten]
  have htb : tb.map (List.filter p) = monoTable tb.length i0 ((tb.getD i0 []).filter p) := by
    apply table_ext
    · rw [List.length_map, length_monoTable]
    · intro j
      rw [getD_map_filter, getD_monoTable]
      by_cases hj : j = i0
      · subst hj
        simp [hi0]
      · rw [if_neg (fun h => hj h.1)]
        apply List.filter_eq_nil_iff.mpr
        intro x hx hpx
        exact hj ((hg j x hx).symm.trans (hp x hpx))
  rw [htb, flatten_monoTable _ _ _ hi0]

/-- A table whose cell `j` is the sub-list of `L` of index `j`, for every `j`,
holds the elements of `L` with their multiplicities. -/
theorem perm_of_cells (hash : Value → Nat) (tb : List (List Value)) (L : List Value)
    (hlen : 0 < tb.length)
    (h : ∀ j, tb.getD j [] = L.filter (fun x => decide (hash x % tb.length = j))) :
    tb.flatten.Perm L := by
  obtain ⟨nt, h1, h2, h3⟩ := redistribute_spec hash tb.length hlen [L]
  have hnt : nt = tb := by
    apply table_ext _ _ h2
    intro j
    rw [h3 j, h j]
    simp
  have hperm := redistribute_perm hash tb.length [L] nt h1
  rw [hnt] at hperm
  simpa using hperm

theorem insert_cells (w : Nat) (hash : Value → Nat) (t t' : HashTable Value) (v : Value)
    (L0 : List Value) (hh : t.hash_function = hash)
    (hinv : ∀ j, t.table.getD j [] = L0.filter (fun x => decide (hash x % t.table.length = j)))
    (h : t.insert w v = some t') :
    t'.hash_function = hash
      ∧ ∀ j, t'.table.getD j []
          = (L0 ++ [v]).filter (fun x => decide (hash x % t'.table.length = j)) := by
  have hc := insert_some_pos w t t' v h
  obtain ⟨t2, r1, r2, _, r4, r5⟩ := insert_spec w t v hc
  have e := insert_eq_of_spec w t t' t2 v h r1
  subst e
  refine ⟨by rw [r2, hh], ?_⟩
  intro j
  rw [r5 j, hh, List.filter_append]
  have htail : (if j = hash v % t2.table.length then [v] else [])
      = List.filter (fun x => decide (hash x % t2.table.length = j)) [v] := by
    by_cases hj : j = hash v % t2.table.length
    · simp [hj]
    · have hj' : ¬ hash v % t2.table.length = j := fun e => hj e.symm
      simp [hj, hj']
  rw [htail]
  congr 1
  by_cases hg : growNeeded t.current_size t.table.length = true
  · rw [if_pos hg] at r4 ⊢
    rw [r4]
    have hplaced : ∀ i x, x ∈ t.table.getD i [] → hash x % t.table.length = i := by
      intro i x hx
      rw [hinv i] at hx
      simpa using (List.mem_filter.mp hx).2
    have hsel : ∀ x, decide (hash x % (t.table.length * 2) = j) = true →
        hash x % t.table.length = j % t.table.length := by
      intro x hx
      have hx' : hash x % (t.table.length * 2) = j := by simpa using hx
      rw [← hx', Nat.mod_mod_of_dvd _ (Dvd.intro _ rfl)]
    rw [filter_flatten_placed t.table (fun x => hash x % t.table.length)
      (fun x => decide (hash x % (t.table.length * 2) = j)) (j % t.table.length)
      (Nat.mod_lt _ hc) hplaced hsel, hinv, List.filter_filter]
    apply List.filter_congr
    intro x _
    by_cases hx : hash x % (t.table.length * 2) = j
    · have := hsel x (by simpa using hx)
      simp [hx, this]
    · simp [hx]
  · rw [if_neg hg] at r4 ⊢
    rw [r4]
    exact hinv j

theorem run_inserts_cells [DecidableEq Value] (w : Nat) (hash : Value → Nat) (L : List Value) :
    ∀ (t0 : HashTable Value) (L0 : List Value), 0 < t0.table.length →
      t0.hash_function = hash →
      (∀ j, t0.table.getD j [] = L0.filter (fun x => decide (hash x % t0.table.length = j))) →
      ∃ t, run w (L.map Op.insert) t0 = some t ∧ 0 < t.table.length
        ∧ ∀ j, t.table.getD j []
            = (L0 ++ L).filter (fun x => decide (hash x % t.table.length = j)) := by
  induction L with
  | nil =>
    intro t0 L0 hc _ hinv
    exact ⟨t0, rfl, hc, by simpa using hinv⟩
  | cons a l ih =>
    intro t0 L0 hc hh hinv
    obtain ⟨t1, r1, _, _, _, _⟩ := insert_spec w t0 a hc
    obtain ⟨b1, b2⟩ := insert_cells w hash t0 t1 a L0 hh hinv r1
    obtain ⟨t, c1, c2, c3⟩ := ih t1 (L0 ++ [a]) (insert_length_pos w t0 t1 a r1) b1 b2
    refine ⟨t, ?_, c2, ?_⟩
    · simp only [List.map_cons, run, Op.apply, r1, Option.some_bind]
      exact c1
    · intro j
      rw [c3 j]
      simp

/-! ### What `remove` deletes -/

/-- With the placement invariant, `remove_if` on the cell of `v` filters `v` out
of every cell. -/
theorem remove_if_eq_map [DecidableEq Value] (t : HashTable Value) (v : Value) (hp : Placed t) :
    remove_if t.table (t.hash_function v % t.table.length) v
      = t.table.map (List.filter (fun elem => !decide (elem = v))) := by
  apply table_ext
  · rw [length_remove_if, List.length_map]
  · intro j
    rw [getD_remove_if, getD_map_filter]
    by_cases hj : j = t.hash_function v % t.table.length
    · rw [if_pos hj]
    · rw [if_neg hj]
      symm
      apply List.filter_eq_self.mpr
      intro x hx
      have hne : ¬ x = v := by
        intro e
        subst e
        exact hj (hp j x hx).symm
      simp [hne]

theorem flatten_remove_if [DecidableEq Value] (t : HashTable Value) (v : Value) (hp : Placed t) :
    (remove_if t.table (t.hash_function v % t.table.length) v).flatten
      = t.table.flatten.filter (fun elem => !decide (elem = v)) := by
  rw [remove_if_eq_map t v hp, List.filter_flatten]

/-- With the placement invariant, the values after a `remove(v)` are the values
before without the elements equal to `v`, up to the order. -/
theorem values_after_remove [DecidableEq Value] (w : Nat) (t t' : HashTable Value) (v : Value)
    (hp : Placed t) (h : t.remove w v = some t') :
    t'.values.Perm (t.values.filter (fun elem => !decide (elem = v))) := by
  obtain ⟨_, _, _, r4, r5⟩ := remove_some w t t' v h
  rw [values_eq_flatten, values_eq_flatten, ← flatten_remove_if t v hp]
  cases hs : shrinkNeeded ((t.current_size + 2 ^ w - 1) % 2 ^ w) t.table.length with
  | true =>
    have h' := h
    unfold HashTable.remove at h'
    have h0 : ¬ t.table.length = 0 := by
      have := (remove_some w t t' v h).1
      omega
    rw [if_neg h0] at h'
    simp only [length_remove_if, hs, if_true, HashTable.rehash_down, Option.map_eq_some'] at h'
    obtain ⟨nt, hnt, rfl⟩ := h'
    exact redistribute_perm _ _ _ _ hnt
  | false =>
    rw [r5 hs]

/-! ### Growths along a sequence of inserts -/

theorem insert_capacity (w : Nat) (t t' : HashTable Value) (v : Value)
    (h : t.insert w v = some t') :
    t'.table.length
      = t.table.length * 2 ^ (if growNeeded t.current_size t.table.length then 1 else 0) := by
  obtain ⟨t2, r1, _, _, r4, _⟩ := insert_spec w t v (insert_some_pos w t t' v h)
  have e := insert_eq_of_spec w t t' t2 v h r1
  subst e
  rw [r4]
  split <;> simp

theorem run_inserts_growCount [DecidableEq Value] (w : Nat) (L : List Value) :
    ∀ t0 t : HashTable Value, run w (L.map Op.insert) t0 = some t →
      t.table.length = t0.table.length * 2 ^ growCount w L t0 ∧ growCount w L t0 ≤ L.length := by
  induction L with
  | nil =>
    intro t0 t h
    have : t0 = t := by simpa [run] using h
    subst this
    simp [growCount]
  | cons a l ih =>
    intro t0 t h
    simp only [List.map_cons, run, Option.bind_eq_some] at h
    obtain ⟨t1, h1, h2⟩ := h
    change t0.insert w a = some t1 at h1
    obtain ⟨c1, c2⟩ := ih t1 t h2
    have hcap := insert_capacity w t0 t1 a h1
    simp only [growCount, h1, List.length_cons]
    constructor
    · rw [c1, hcap, Nat.mul_assoc, ← pow_add]
    · split <;> omega

/-- Along inserts from a table with at least one cell the counter stays below
`0.7 * capacity + 1` (numbers in the range where `double` is exact). -/
theorem run_inserts_bound [DecidableEq Value] (w : Nat) (L : List Value) :
    ∀ t0 t : HashTable Value, run w (L.map Op.insert) t0 = some t → t.table.length < 2 ^ 53 →
      1 ≤ t0.table.length → 10 * t0.current_size < 7 * t0.table.length + 10 →
      t0.current_size + L.length < 2 ^ w → t0.current_size + L.length ≤ 2 ^ 53 →
      10 * t.current_size < 7 * t.table.length + 10 := by
  induction L with
  | nil =>
    intro t0 t h _ _ hinv _ _
    have : t0 = t := by simpa [run] using h
    subst this
    exact hinv
  | cons a l ih =>
    intro t0 t h hfin h3 hinv hw h53
    simp only [List.length_cons] at hw h53
    simp only [List.map_cons, run, Option.bind_eq_some] at h
    obtain ⟨t1, h1, h2⟩ := h
    change t0.insert w a = some t1 at h1
    obtain ⟨t2, r1, _, r3, r4, _⟩ := insert_spec w t0 a (insert_some_pos w t0 t1 a h1)
    have e := insert_eq_of_spec w t0 t1 t2 a h1 r1
    subst e
    have hmono := run_inserts_mono w l t2 t h2
    have hcs : t2.current_size = t0.current_size + 1 := by
      rw [r3]; exact Nat.mod_eq_of_lt (by omega)
    have hstep : 1 ≤ t2.table.length ∧ 10 * t2.current_size < 7 * t2.table.length + 10 := by
      rw [hcs, r4]
      by_cases hg : growNeeded t0.current_size t0.table.length = true
      · rw [if_pos hg]; omega
      · rw [if_neg hg]
        have hlen0 : t0.table.length < 2 ^ 53 := by
          rw [r4, if_neg hg] at hmono; omega
        have hnot : ¬ 7 * t0.table.length ≤ 10 * t0.current_size := fun hle =>
          hg (growNeeded_of_le _ _ hlen0 (by omega) hle)
        omega
    exact ih t2 t h2 hfin hstep.1 hstep.2 (by omega) (by omega)

/-! ### The digest -/

theorem djb2Step_eq (signedChar : Bool) (w : Nat) (hash : Nat) (c : Byte) :
    djb2Step signedChar w hash c = (hash * 33 + charToULong signedChar w c) % 2 ^ w := by
  unfold djb2Step
  have h : hash * 2 ^ 5 % 2 ^ w + hash ≡ hash * 33 [MOD 2 ^ w] := by
    have h1 : hash * 2 ^ 5 % 2 ^ w ≡ hash * 2 ^ 5 [MOD 2 ^ w] := Nat.mod_modEq _ _
    have h2 := Nat.ModEq.add_right hash h1
    have h3 : hash * 2 ^ 5 + hash = hash * 33 := by ring
    rw [h3] at h2
    exact h2
  have h4 : (hash * 2 ^ 5 % 2 ^ w + hash) % 2 ^ w ≡ hash * 33 [MOD 2 ^ w] :=
    (Nat.mod_modEq _ _).trans h
  exact Nat.ModEq.add_right _ h4

theorem charToULong_of_lt (signedChar : Bool) (w : Nat) (b : Byte) (hw : 8 ≤ w)
    (hb : signedChar = false ∨ b.val < 128) : charToULong signedChar w b = b.val := by
  have h256 : (256 : Nat) ≤ 2 ^ w := by
    calc (256 : Nat) = 2 ^ 8 := by norm_num
      _ ≤ 2 ^ w := Nat.pow_le_pow_right (by norm_num) hw
  have hlt : b.val < 2 ^ w := lt_of_lt_of_le b.isLt h256
  unfold charToULong
  rcases hb with hb | hb
  · simp [hb, Nat.mod_eq_of_lt hlt]
  · have : ¬ (128 ≤ b.val) := by omega
    simp [this, Nat.mod_eq_of_lt hlt]

theorem charToULong_of_ge (w : Nat) (b : Byte) (hw : 8 ≤ w) (hb : 128 ≤ b.val) :
    charToULong true w b = 2 ^ w - 256 + b.val := by
  have h256 : (256 : Nat) ≤ 2 ^ w := by
    calc (256 : Nat) = 2 ^ 8 := by norm_num
      _ ≤ 2 ^ w := Nat.pow_le_pow_right (by norm_num) hw
  have hb2 := b.isLt
  unfold charToULong
  simp only [Bool.true_and, decide_eq_true_eq, hb, if_true]
  have hpos : (0 : Int) < (2 : Int) ^ w := by positivity
  have hcast : ((2 ^ w : Nat) : Int) = (2 : Int) ^ w := by push_cast; rfl
  have key : ((b.val : Int) - 256) % (2 : Int) ^ w = ((2 ^ w - 256 + b.val : Nat) : Int) := by
    have e : ((2 ^ w - 256 + b.val : Nat) : Int) = (b.val : Int) - 256 + (2 : Int) ^ w := by
      rw [← hcast]; omega
    rw [e, ← Int.add_emod_self (a := (b.val : Int) - 256) (b := (2 : Int) ^ w)]
    apply Int.emod_eq_of_lt
    · rw [← hcast]; omega
    · rw [← hcast]; omega
  rw [key]
  exact Int.toNat_ofNat _

theorem seed_mod (w : Nat) (hw : 32 ≤ w) : 5381 % 2 ^ w = 5381 := by
  apply Nat.mod_eq_of_lt
  calc 5381 < 2 ^ 32 := by norm_num
    _ ≤ 2 ^ w := Nat.pow_le_pow_right (by norm_num) hw

theorem hash_djb2_nil (signedChar : Bool) (w : Nat) (hw : 32 ≤ w) :
    hash_djb2 signedChar w [] = 5381 := by
  unfold hash_djb2
  simpa using seed_mod w hw

/-- Claim C1, as the code has it: `hash_djb2` is the left fold, from 5381, of
`acc := (acc * 33 + x) mod 2 ^ w`, where `x` is the `char` converted to
`unsigned long`; the empty string gives 5381; appending a byte `b` gives
`(hash_djb2 s * 33 + x) mod 2 ^ w`; `x` is the byte value `b` when `char` is
unsigned or `b < 128`, and `2 ^ w - 256 + b` for a byte 128..255 when `char` is
signed. -/
theorem hash_djb2_fold (signedChar : Bool) (w : Nat) (hw : 32 ≤ w) (s : List Byte) (b : Byte) :
    hash_djb2 signedChar w s
        = s.foldl (fun acc x => (acc * 33 + charToULong signedChar w x) % 2 ^ w) 5381
      ∧ hash_djb2 signedChar w [] = 5381
      ∧ hash_djb2 signedChar w (s ++ [b])
        = (hash_djb2 signedChar w s * 33 + charToULong signedChar w b) % 2 ^ w
      ∧ ((signedChar = false ∨ b.val < 128) → charToULong signedChar w b = b.val)
      ∧ (128 ≤ b.val → charToULong true w b = 2 ^ w - 256 + b.val) := by
  have h5381 : 5381 % 2 ^ w = 5381 := seed_mod w hw
  have hfun : djb2Step signedChar w
      = fun acc x => (acc * 33 + charToULong signedChar w x) % 2 ^ w := by
    funext acc x; exact djb2Step_eq signedChar w acc x
  refine ⟨?_, ?_, ?_, ?_, ?_⟩
  · unfold hash_djb2; rw [h5381, hfun]
  · exact hash_djb2_nil signedChar w hw
  · unfold hash_djb2; rw [List.foldl_concat, djb2Step_eq]
  · exact charToULong_of_lt signedChar w b (by omega)
  · exact charToULong_of_ge w b (by omega)

/-- Witness of `hash_djb2_fold`: a 64-bit `unsigned long`, signed `char`, the
string of the single byte 200, extended by the byte 128. -/
theorem hash_djb2_fold_witness :
    hash_djb2 true 64 [200]
        = [200].foldl (fun acc x => (acc * 33 + charToULong true 64 x) % 2 ^ 64) 5381
      ∧ hash_djb2 true 64 [] = 5381
      ∧ hash_djb2 true 64 ([200] ++ [128])
        = (hash_djb2 true 64 [200] * 33 + charToULong true 64 128) % 2 ^ 64
      ∧ ((true = false ∨ (128 : Byte).val < 128) → charToULong true 64 128 = (128 : Byte).val)
      ∧ (128 ≤ (128 : Byte).val → charToULong true 64 128 = 2 ^ 64 - 256 + (128 : Byte).val) :=
  hash_djb2_fold true 64 (by decide) [200] 128

/-- Claim C1 as stated fails where `char` is signed: for the one-byte string of
the byte 128, `hash_djb2` is not `(5381 * 33 + 128) mod 2 ^ 64`; the code adds
`2 ^ 64 - 128`. -/
theorem hash_djb2_high_byte_counterexample :
    hash_djb2 true 64 ([] ++ [128]) ≠ (hash_djb2 true 64 [] * 33 + 128) % 2 ^ 64
      ∧ hash_djb2 true 64 ([] ++ [128]) = 5381 * 33 - 128 := by
  decide

theorem djb2_fold_modEq (signedChar : Bool) (w : Nat) (hw : 8 ≤ w) (s : List Byte)
    (hs : ∀ b ∈ s, b.val < 128) (a a' : Nat) (ha : a ≡ a' [MOD 2 ^ w]) :
    s.foldl (djb2Step signedChar w) a ≡ s.foldl (fun acc x => acc * 33 + x.val) a' [MOD 2 ^ w] := by
  induction s generalizing a a' with
  | nil => simpa using ha
  | cons b t ih =>
    simp only [List.foldl_cons]
    apply ih (fun x hx => hs x (List.mem_cons_of_mem _ hx))
    rw [djb2Step_eq, charToULong_of_lt signedChar w b hw (Or.inr (hs b (List.mem_cons_self _ _)))]
    exact (Nat.mod_modEq _ _).trans (Nat.ModEq.add_right _ (Nat.ModEq.mul_right _ ha))

theorem hash_djb2_ascii_mod (signedChar : Bool) (w : Nat) (hw : 32 ≤ w) (s : List Byte)
    (hs : ∀ b ∈ s, b.val < 128) :
    hash_djb2 signedChar w s % 2 ^ 32 = s.foldl (fun acc x => acc * 33 + x.val) 5381 % 2 ^ 32 := by
  have h := djb2_fold_modEq signedChar w (by omega) s hs (5381 % 2 ^ w) 5381 (Nat.mod_modEq _ _)
  have hd : 2 ^ 32 ∣ 2 ^ w := pow_dvd_pow 2 hw
  exact Nat.ModEq.of_dvd hd h

/-- Claim C2: the digests of the fixed inputs: the empty string gives 5381,
`"value1"` gives 574111667 modulo `2 ^ 32` and `"test_string"` gives 4175666075
modulo `2 ^ 32`, whatever the signedness of `char` and for every width of at
least 32 bits. -/
theorem hash_djb2_reference_values (signedChar : Bool) (w : Nat) (hw : 32 ≤ w) :
    hash_djb2 signedChar w (asciiBytes "") = 5381
      ∧ hash_djb2 signedChar w (asciiBytes "value1") % 2 ^ 32 = 574111667
      ∧ hash_djb2 signedChar w (asciiBytes "test_string") % 2 ^ 32 = 4175666075 := by
  refine ⟨?_, ?_, ?_⟩
  · exact hash_djb2_nil signedChar w hw
  · rw [hash_djb2_ascii_mod signedChar w hw _ (by decide)]
    decide
  · rw [hash_djb2_ascii_mod signedChar w hw _ (by decide)]
    decide

/-- Witness of `hash_djb2_reference_values`: signed `char` and a 32-bit
`unsigned long`, where the reduction modulo `2 ^ 32` changes nothing. -/
theorem hash_djb2_reference_values_witness :
    hash_djb2 true 32 (asciiBytes "") = 5381
      ∧ hash_djb2 true 32 (asciiBytes "value1") % 2 ^ 32 = 574111667
      ∧ hash_djb2 true 32 (asciiBytes "test_string") % 2 ^ 32 = 4175666075 :=
  hash_djb2_reference_values true 32 (by decide)

/-! ### The table -/

/-- Claim C3: for a positive initial capacity, any hash function and any list
`L` of values (no longer than a `size_t` can count), inserting the elements of
`L` one after another into a fresh table has a result, and `size()` is then the
length of `L`. -/
theorem size_after_inserts [DecidableEq Value] (w : Nat) (c : Nat) (hash : Value → Nat)
    (L : List Value) (hc : 0 < c) (hL : L.length < 2 ^ w) :
    ∃ t, run w (L.map Op.insert) (HashTable.ctor c hash) = some t ∧ t.size = L.length := by
  obtain ⟨t, h1, _, h3, _⟩ := run_inserts w L (HashTable.ctor c hash)
    (by simpa [HashTable.ctor] using hc) (by simpa [HashTable.ctor] using hL)
  exact ⟨t, h1, by simpa [HashTable.size, HashTable.ctor] using h3⟩

/-- Witness of `size_after_inserts`: capacity 1, the identity hash, four values
with a duplicate, a 64-bit `size_t`. -/
theorem size_after_inserts_witness :
    ∃ t, run 64 ([5, 7, 5, 9].map Op.insert) (HashTable.ctor 1 (fun x : Nat => x)) = some t
      ∧ t.size = [5, 7, 5, 9].length :=
  size_after_inserts 64 1 (fun x : Nat => x) [5, 7, 5, 9] (by decide) (by decide)

/-- Claim C5: in a state reached from a fresh table by `insert` and `remove`
calls, with capacity at least 2 and `size()` at least 1, where `v` is stored
exactly once: `remove(v)` has a result, in which `find(v)` is false and `size()`
is the previous `size()` minus 1. -/
theorem remove_then_find [DecidableEq Value] (w : Nat) (c : Nat) (hash : Value → Nat)
    (ops : List (Op Value)) (t : HashTable Value) (v : Value)
    (hreach : run w ops (HashTable.ctor c hash) = some t)
    (hcap : 2 ≤ t.capacity) (hsize : 1 ≤ t.size) (hv : t.values.count v = 1) :
    ∃ t', t.remove w v = some t' ∧ t'.find v = some false ∧ t'.size = t.size - 1 := by
  have hpow : 0 < 2 ^ w := Nat.pos_pow_of_pos w (by norm_num)
  obtain ⟨hp, hlt⟩ := reach_invariant w ops (HashTable.ctor c hash) t (placed_ctor c hash)
    (by simp [HashTable.ctor]) hreach
  obtain ⟨t', ht'⟩ := remove_defined w t v hcap
  obtain ⟨_, _, r3, r4, r5⟩ := remove_some w t t' v ht'
  have hnot := not_mem_after_remove w t t' v hp ht'
  have hlen : 0 < t'.table.length := by
    cases hs : shrinkNeeded ((t.current_size + 2 ^ w - 1) % 2 ^ w) t.table.length with
    | true =>
      rw [(r4 hs).1]
      have : 2 ≤ t.table.length := hcap
      omega
    | false =>
      rw [r5 hs, length_remove_if]
      have : 2 ≤ t.table.length := hcap
      omega
  refine ⟨t', ht', ?_, ?_⟩
  · unfold HashTable.find
    rw [if_neg (by omega)]
    simp only [Option.some.injEq, List.any_eq_false, decide_eq_true_eq]
    intro x hx e
    subst e
    exact hnot _ hx
  · have h1 : 1 ≤ t.current_size := hsize
    show t'.current_size = t.current_size - 1
    rw [r3]
    have e : t.current_size + 2 ^ w - 1 = (t.current_size - 1) + 2 ^ w := by omega
    rw [e, Nat.add_mod_right]
    exact Nat.mod_eq_of_lt (by omega)

/-- Witness of `remove_then_find`: the state after inserting 1, 2, 3 into a fresh
table of capacity 2 (identity hash), from which the value 2 is removed. -/
theorem remove_then_find_witness :
    ∃ t', (HashTable.mk [[], [1], [2], [3]] (fun x : Nat => x) 3).remove 64 2 = some t'
      ∧ t'.find 2 = some false
      ∧ t'.size = (HashTable.mk [[], [1], [2], [3]] (fun x : Nat => x) 3).size - 1 :=
  remove_then_find 64 2 (fun x : Nat => x) [Op.insert 1, Op.insert 2, Op.insert 3]
    (HashTable.mk [[], [1], [2], [3]] (fun x : Nat => x) 3) 2 rfl (by decide) (by decide)
    (by decide)

/-- Claim C6, evaluated on the code: on a table constructed with capacity 1,
`insert(a)` followed by `remove(a)` ends in a state with capacity 0 (the shrink
halves 1 to 0), in which `insert`, `find`, `remove` and `getBucketSize` have no
defined result (remainder by zero). This holds for every hash function, every
value and every width of `size_t` of at least one bit. -/
theorem shrink_reaches_capacity_zero [DecidableEq Value] (w : Nat) (hw : 1 ≤ w)
    (hash : Value → Nat) (a : Value) :
    ∃ t, run w [Op.insert a, Op.remove a] (HashTable.ctor 1 hash) = some t
      ∧ t.capacity = 0 ∧ t.size = 0
      ∧ t.insert w a = none ∧ t.find a = none ∧ t.remove w a = none
      ∧ t.getBucketSize a = none := by
  have h2 : (1 : Nat) < 2 ^ w := Nat.one_lt_two_pow (by omega)
  have hg : growNeeded 0 1 = false := by decide
  have hs : shrinkNeeded 0 1 = true := by decide
  have hg0 : growNeeded 0 0 = true := by decide
  have hcnt : (1 + 2 ^ w - 1) % 2 ^ w = 0 := by
    rw [Nat.add_sub_cancel_left]; exact Nat.mod_self _
  refine ⟨{ table := [], hash_function := hash, current_size := 0 }, ?_, rfl, rfl, ?_, rfl, rfl, rfl⟩
  · simp [run, Op.apply, HashTable.insert, HashTable.remove, HashTable.ctor, hg, hs, Nat.mod_one,
      emplace_back, remove_if, updateCell, Nat.mod_eq_of_lt h2, hcnt, HashTable.rehash_down,
      redistribute]
  · simp [HashTable.insert, hg0, HashTable.rehash, redistribute]

/-- Witness of `shrink_reaches_capacity_zero`: a 64-bit `size_t`, the identity
hash on natural numbers and the value 7. -/
theorem shrink_reaches_capacity_zero_witness :
    ∃ t, run 64 [Op.insert 7, Op.remove 7] (HashTable.ctor 1 (fun x : Nat => x)) = some t
      ∧ t.capacity = 0 ∧ t.size = 0
      ∧ t.insert 64 7 = none ∧ t.find 7 = none ∧ t.remove 64 7 = none
      ∧ t.getBucketSize 7 = none :=
  shrink_reaches_capacity_zero 64 (by decide) (fun x : Nat => x) 7

/-- Claim C7 as stated fails: the constructor called with size 0 returns a table
(with no cell and `size()` 0), and it is the next `insert` that has no defined
result. -/
theorem ctor_zero_counterexample :
    (HashTable.ctor 0 (fun x : Nat => x)).table = []
      ∧ (HashTable.ctor 0 (fun x : Nat => x)).size = 0
      ∧ (HashTable.ctor 0 (fun x : Nat => x)).insert 64 5 = none := by
  refine ⟨rfl, rfl, rfl⟩

/-- Claim C7, as the code has it: the constructor accepts the size 0 and yields
a table with zero cells, `size()` 0 and no stored value; on that table `insert`,
`find`, `remove` and `getBucketSize` compute a remainder by zero and have no
defined result, and `load_factor` is not a finite number. -/
theorem ctor_zero_accepted [DecidableEq Value] (w : Nat) (hash : Value → Nat) (v : Value) :
    (HashTable.ctor 0 hash).capacity = 0
      ∧ (HashTable.ctor 0 hash).size = 0
      ∧ (HashTable.ctor 0 hash).values = []
      ∧ (HashTable.ctor 0 hash).insert w v = none
      ∧ (HashTable.ctor 0 hash).find v = none
      ∧ (HashTable.ctor 0 hash).remove w v = none
      ∧ (HashTable.ctor 0 hash).getBucketSize v = none
      ∧ (HashTable.ctor 0 hash).load_factor = none := by
  have hg0 : growNeeded 0 0 = true := by decide
  refine ⟨rfl, rfl, rfl, ?_, rfl, rfl, rfl, rfl⟩
  simp [HashTable.ctor, HashTable.insert, hg0, HashTable.rehash, redistribute]

/-- Claim C8 as stated fails for the initial capacities 1 and 2: from capacity 1
the second insert grows the table to capacity 2 and leaves 2 elements; from
capacity 2 the third insert grows it to capacity 4 and leaves 3 elements; in
both cases the load factor after the insert is above 0.7. -/
theorem load_after_growth_counterexample :
    (∃ t t', run 64 ([1].map Op.insert) (HashTable.ctor 1 (fun x : Nat => x)) = some t
        ∧ growNeeded t.size t.capacity = true ∧ t.insert 64 2 = some t'
        ∧ t'.size = 2 ∧ t'.capacity = 2 ∧ ¬ 10 * t'.size ≤ 7 * t'.capacity)
      ∧ (∃ t t', run 64 ([1, 2].map Op.insert) (HashTable.ctor 2 (fun x : Nat => x)) = some t
        ∧ growNeeded t.size t.capacity = true ∧ t.insert 64 3 = some t'
        ∧ t'.size = 3 ∧ t'.capacity = 4 ∧ ¬ 10 * t'.size ≤ 7 * t'.capacity) :=
  ⟨⟨_, _, rfl, by decide, rfl, rfl, rfl, by decide⟩,
    ⟨_, _, rfl, by decide, rfl, rfl, rfl, by decide⟩⟩

/-- Claim C8, amended: for a positive initial capacity, any hash function and
any sequence of inserts into a fresh table (sizes within the range where
`double` is exact), an insert that triggers a growth from a capacity of at
least 3 doubles the capacity and leaves a load factor of at most 0.7:
`10 * count ≤ 7 * capacity`. -/
theorem load_after_growth [DecidableEq Value] (w : Nat) (c : Nat) (hash : Value → Nat)
    (L : List Value) (v : Value) (t : HashTable Value) (hc : 0 < c)
    (hw : L.length + 1 < 2 ^ w) (hL : L.length < 2 ^ 53)
    (hrun : run w (L.map Op.insert) (HashTable.ctor c hash) = some t)
    (h3 : 3 ≤ t.capacity) (hcap : t.capacity < 2 ^ 53)
    (hgrow : growNeeded t.size t.capacity = true) :
    ∃ t', t.insert w v = some t' ∧ t'.capacity = 2 * t.capacity ∧ t'.size = L.length + 1
      ∧ 10 * t'.size ≤ 7 * t'.capacity := by
  have hlen0 : (HashTable.ctor c hash : HashTable Value).table.length = c := by
    simp [HashTable.ctor]
  have hcs0 : (HashTable.ctor c hash : HashTable Value).current_size = 0 := rfl
  have hb := run_inserts_bound w L (HashTable.ctor c hash) t hrun hcap
    (by rw [hlen0]; omega) (by rw [hcs0]; omega) (by rw [hcs0]; omega) (by rw [hcs0]; omega)
  obtain ⟨t2, e1, _, e3, _⟩ := run_inserts w L (HashTable.ctor c hash)
    (by rw [hlen0]; exact hc) (by rw [hcs0]; omega)
  have e : t2 = t := by
    rw [e1] at hrun
    exact Option.some.inj hrun
  subst e
  rw [hcs0, Nat.zero_add] at e3
  have h3' : 3 ≤ t2.table.length := h3
  obtain ⟨t', r1, _, r3, r4, _⟩ := insert_spec w t2 v (by omega)
  have hg : growNeeded t2.current_size t2.table.length = true := hgrow
  rw [if_pos hg] at r4
  have hcs : t'.current_size = L.length + 1 := by
    rw [r3, e3]; exact Nat.mod_eq_of_lt hw
  refine ⟨t', r1, ?_, hcs, ?_⟩
  · show t'.table.length = 2 * t2.table.length
    omega
  · show 10 * t'.current_size ≤ 7 * t'.table.length
    omega

/-- Witness of `load_after_growth`: initial capacity 1 and the identity hash;
the inserts of 1, 2, 3 grow the table to capacity 4, and the insert of 4
triggers the growth from capacity 4 to capacity 8. -/
theorem load_after_growth_witness :
    ∃ t', (HashTable.mk [[], [1], [2], [3]] (fun x : Nat => x) 3).insert 64 4 = some t'
      ∧ t'.capacity = 2 * (HashTable.mk [[], [1], [2], [3]] (fun x : Nat => x) 3).capacity
      ∧ t'.size = [1, 2, 3].length + 1
      ∧ 10 * t'.size ≤ 7 * t'.capacity :=
  load_after_growth 64 1 (fun x : Nat => x) [1, 2, 3] 4
    (HashTable.mk [[], [1], [2], [3]] (fun x : Nat => x) 3) (by decide) (by decide) (by decide)
    rfl (by decide) (by decide) (by decide)

/-- Claim C9 as stated fails: on a table of capacity 20 holding 1 and 2,
`remove(1)` triggers the shrink from capacity 20 to capacity 10 and leaves one
element, a load factor of 0.1. -/
theorem load_after_shrink_counterexample :
    ∃ t t', run 64 [Op.insert 1, Op.insert 2] (HashTable.ctor 20 (fun x : Nat => x)) = some t
      ∧ 2 ≤ t.capacity
      ∧ shrinkNeeded ((t.size + 2 ^ 64 - 1) % 2 ^ 64) t.capacity = true
      ∧ t.remove 64 1 = some t'
      ∧ t'.size = 1 ∧ t'.capacity = 10 ∧ ¬ t'.capacity ≤ 5 * t'.size :=
  ⟨_, _, rfl, by decide, by decide, rfl, rfl, rfl, by decide⟩

/-- Claim C9, amended: from a capacity of at least 2, a remove that triggers a
shrink has a result, halves the capacity once and decrements the counter; the
load factor afterwards is at least 0.2 (`capacity ≤ 5 * count`) whenever the
count after the remove is at least a tenth of the capacity before it. -/
theorem load_after_shrink [DecidableEq Value] (w : Nat) (t : HashTable Value) (v : Value)
    (hcap : 2 ≤ t.capacity)
    (hshrink : shrinkNeeded ((t.size + 2 ^ w - 1) % 2 ^ w) t.capacity = true) :
    ∃ t', t.remove w v = some t' ∧ t'.capacity = t.capacity / 2
      ∧ t'.size = (t.size + 2 ^ w - 1) % 2 ^ w
      ∧ (t.capacity ≤ 10 * t'.size → t'.capacity ≤ 5 * t'.size) := by
  obtain ⟨t', ht'⟩ := remove_defined w t v hcap
  obtain ⟨_, _, r3, r4, _⟩ := remove_some w t t' v ht'
  obtain ⟨b1, _, _⟩ := r4 hshrink
  refine ⟨t', ht', b1, r3, ?_⟩
  intro h
  show t'.table.length ≤ 5 * t'.current_size
  have h' : t.table.length ≤ 10 * t'.current_size := h
  omega

/-- Witness of `load_after_shrink`: capacity 20 with four elements; `remove(1)`
leaves 3 elements in 10 cells. -/
theorem load_after_shrink_witness :
    ∃ t', (HashTable.mk ([[], [1], [2], [3], [4]] ++ List.replicate 15 []) (fun x : Nat => x) 4).remove
        64 1 = some t'
      ∧ t'.capacity
        = (HashTable.mk ([[], [1], [2], [3], [4]] ++ List.replicate 15 []) (fun x : Nat => x) 4).capacity / 2
      ∧ t'.size
        = ((HashTable.mk ([[], [1], [2], [3], [4]] ++ List.replicate 15 []) (fun x : Nat => x) 4).size
            + 2 ^ 64 - 1) % 2 ^ 64
      ∧ ((HashTable.mk ([[], [1], [2], [3], [4]] ++ List.replicate 15 []) (fun x : Nat => x) 4).capacity
          ≤ 10 * t'.size → t'.capacity ≤ 5 * t'.size) :=
  load_after_shrink 64
    (HashTable.mk ([[], [1], [2], [3], [4]] ++ List.replicate 15 []) (fun x : Nat => x) 4) 1
    (by decide) (by decide)

/-- Claim C10: the scenario of the smoke test, step by step, for every `size_t`
of at least 8 bits. On the table of capacity 100 with the constant hash 42:
after the inserts of `"value1"` and `"value2"`, `size()` is 2; after the removal
of `"value1"`, `size()` is 1 and `find("value1")` is false; after its second
insert, `size()` is 2 and `find("value1")` is true; after the inserts of
`"value3"` .. `"value150"`, `size()` is 150, the capacity is 400 and the load
factor is at most 0.7 (exactly, and as the `double` that `load_factor()`
returns); after the removal of the same 148 values, `size()` is 2, the capacity
is 6 and the load factor is at least 0.2; and the capacity is positive in every
state along the way. -/
theorem smoke_test_scenario (w : Nat) (hw : 8 ≤ w) :
    (run w [Op.insert "value1", Op.insert "value2"] smokeTable).map (fun t => t.size) = some 2
      ∧ (run w [Op.insert "value1", Op.insert "value2", Op.remove "value1"] smokeTable).map
          (fun t => (t.size, t.find "value1")) = some (1, some false)
      ∧ (run w smokeStart smokeTable).map
          (fun t => (t.size, t.find "value1")) = some (2, some true)
      ∧ (run w (smokeStart ++ smokeValues.map Op.insert) smokeTable).map
          (fun t => (t.size, t.capacity, decide (10 * t.size ≤ 7 * t.capacity),
            t.load_factor.map (fun d => Dbl.le d max_load_factor)))
          = some (150, 400, true, some true)
      ∧ (run w (smokeStart ++ smokeValues.map Op.insert ++ smokeValues.map Op.remove)
            smokeTable).map
          (fun t => (t.size, t.capacity, decide (t.capacity ≤ 5 * t.size),
            t.load_factor.map (fun d => Dbl.le min_load_factor d)))
          = some (2, 6, true, some true)
      ∧ capacitiesPositive w (smokeStart ++ smokeValues.map Op.insert ++ smokeValues.map Op.remove)
          smokeTable = true := by
  have n5 : countersOk 8 smokeTable.current_size
      (smokeStart ++ smokeValues.map Op.insert ++ smokeValues.map Op.remove) = true := by decide!
  have n4 : countersOk 8 smokeTable.current_size (smokeStart ++ smokeValues.map Op.insert)
      = true := countersOk_prefix 8 _ _ _ n5
  have n3 : countersOk 8 smokeTable.current_size smokeStart = true :=
    countersOk_prefix 8 _ _ _ n4
  have n2 : countersOk 8 smokeTable.current_size
      [Op.insert "value1", Op.insert "value2", Op.remove "value1"] = true :=
    countersOk_prefix 8 _ [Op.insert "value1"] _ n3
  have n1 : countersOk 8 smokeTable.current_size [Op.insert "value1", Op.insert "value2"]
      = true := countersOk_prefix 8 _ [Op.remove "value1"] _ n2
  have o4 : smokeStart ++ smokeValues.map Op.insert
      = (smokeStartNumbers ++ smokeNumbers.map Op.insert).map (Op.map valueName) := by decide!
  have o5 : smokeStart ++ smokeValues.map Op.insert ++ smokeValues.map Op.remove
      = (smokeStartNumbers ++ smokeNumbers.map Op.insert ++ smokeNumbers.map Op.remove).map
          (Op.map valueName) := by decide!
  have m4 : (monoRun 8 (smokeStartNumbers ++ smokeNumbers.map Op.insert) (100, [], 0)).map
      (fun r => (r.1, r.2.2)) = some (400, 150) := by decide!
  have m5 : (monoRun 8 (smokeStartNumbers ++ smokeNumbers.map Op.insert
        ++ smokeNumbers.map Op.remove) (100, [], 0)).map
      (fun r => (r.1, r.2.2)) = some (6, 2) := by decide!
  obtain ⟨t4, h4, c4, s4⟩ := run_of_monoRun valueName valueName_injective 8 42 100 400 150 _ m4
  obtain ⟨t5, h5, c5, s5⟩ := run_of_monoRun valueName valueName_injective 8 42 100 6 2 _ m5
  rw [← o4] at h4
  rw [← o5] at h5
  have e5 := run_width 8 w hw _ smokeTable n5
  rw [run_width 8 w hw _ _ n1, run_width 8 w hw _ _ n2, run_width 8 w hw _ _ n3,
    run_width 8 w hw _ _ n4, e5]
  refine ⟨?_, ?_, ?_, ?_, ?_, ?_⟩
  · decide!
  · decide!
  · decide!
  · show (run 8 (smokeStart ++ smokeValues.map Op.insert) (HashTable.ctor 100 (fun _ => 42))).map
        _ = _
    rw [h4]
    simp only [Option.map_some', HashTable.size, HashTable.capacity, HashTable.load_factor,
      c4, s4]
    decide!
  · show (run 8 (smokeStart ++ smokeValues.map Op.insert ++ smokeValues.map Op.remove)
        (HashTable.ctor 100 (fun _ => 42))).map _ = _
    rw [h5]
    simp only [Option.map_some', HashTable.size, HashTable.capacity, HashTable.load_factor,
      c5, s5]
    decide!
  · have h5' : run w (smokeStart ++ smokeValues.map Op.insert ++ smokeValues.map Op.remove)
        smokeTable = some t5 := e5.trans h5
    exact capacitiesPositive_of_run w _ smokeTable t5 h5' (by show 0 < t5.table.length; omega)

/-- Witness of `smoke_test_scenario`: a 64-bit `size_t`. -/
theorem smoke_test_scenario_witness :
    (run 64 [Op.insert "value1", Op.insert "value2"] smokeTable).map (fun t => t.size) = some 2
      ∧ (run 64 [Op.insert "value1", Op.insert "value2", Op.remove "value1"] smokeTable).map
          (fun t => (t.size, t.find "value1")) = some (1, some false)
      ∧ (run 64 smokeStart smokeTable).map
          (fun t => (t.size, t.find "value1")) = some (2, some true)
      ∧ (run 64 (smokeStart ++ smokeValues.map Op.insert) smokeTable).map
          (fun t => (t.size, t.capacity, decide (10 * t.size ≤ 7 * t.capacity),
            t.load_factor.map (fun d => Dbl.le d max_load_factor)))
          = some (150, 400, true, some true)
      ∧ (run 64 (smokeStart ++ smokeValues.map Op.insert ++ smokeValues.map Op.remove)
            smokeTable).map
          (fun t => (t.size, t.capacity, decide (t.capacity ≤ 5 * t.size),
            t.load_factor.map (fun d => Dbl.le min_load_factor d)))
          = some (2, 6, true, some true)
      ∧ capacitiesPositive 64
          (smokeStart ++ smokeValues.map Op.insert ++ smokeValues.map Op.remove) smokeTable
          = true :=
  smoke_test_scenario 64 (by decide)

/-- Claim C11: for a positive initial capacity, a constant hash function and a
list of pairwise distinct values, the inserts of the values into a fresh table
have a result in which `getBucketSize(v)` is the number of values and `find(v)`
is true, for each inserted `v` (whatever the number of growths on the way). -/
theorem collision_accumulation [DecidableEq Value] (w c k : Nat) (L : List Value) (hc : 0 < c)
    (hL : L.Nodup) :
    ∃ t, run w (L.map Op.insert) (HashTable.ctor c (fun _ => k)) = some t
      ∧ ∀ v ∈ L, t.getBucketSize v = some L.length ∧ t.find v = some true := by
  obtain ⟨cap, n, h1, h2⟩ := monoRun_inserts w L (c, [], 0) hc
  have hrun := mono_run w k _ _ _ h1
  rw [← monoState_ctor] at hrun
  simp only [List.nil_append] at hrun
  refine ⟨_, hrun, ?_⟩
  intro v hv
  have hlen : (monoState k (cap, L, n)).table.length = cap := length_monoTable _ _ _
  have h0 : ¬ (monoState k (cap, L, n)).table.length = 0 := by rw [hlen]; omega
  have hcell : (monoState k (cap, L, n)).table.getD
      ((monoState k (cap, L, n)).hash_function v % (monoState k (cap, L, n)).table.length) []
      = L := by
    rw [hlen]
    show (monoTable cap (k % cap) L).getD (k % cap) [] = L
    rw [getD_monoTable]
    simp [Nat.mod_lt k h2]
  constructor
  · unfold HashTable.getBucketSize
    rw [if_neg h0, hcell]
  · unfold HashTable.find
    rw [if_neg h0]
    simp only [hcell, Option.some.injEq, List.any_eq_true, decide_eq_true_eq]
    exact ⟨v, hv, rfl⟩

/-- Witness of `collision_accumulation`: capacity 1, every key hashed to 42,
three values, which makes the table grow twice. -/
theorem collision_accumulation_witness :
    ∃ t, run 64 ([10, 20, 30].map Op.insert) (HashTable.ctor 1 (fun _ => 42)) = some t
      ∧ ∀ v ∈ [10, 20, 30], t.getBucketSize v = some [10, 20, 30].length
        ∧ t.find v = some true :=
  collision_accumulation 64 1 42 [10, 20, 30] (by decide) (by decide)

/-- Claim C13: the placement invariant. In every state reached from a fresh
table of positive capacity by `insert` and `remove` calls, every element of the
cell `i` has `hash_function(x) % capacity = i`; and `insert`, `remove`, `rehash`
and `rehash_down` each yield a state with the invariant. -/
theorem placement_invariant [DecidableEq Value] (w c : Nat) (hash : Value → Nat)
    (ops : List (Op Value)) (t : HashTable Value) (hc : 0 < c)
    (hrun : run w ops (HashTable.ctor c hash) = some t) :
    (∀ i x, x ∈ t.table.getD i [] → hash x % t.capacity = i)
      ∧ (∀ (s s' : HashTable Value) (v : Value), Placed s → s.insert w v = some s' → Placed s')
      ∧ (∀ (s s' : HashTable Value) (v : Value), Placed s → s.remove w v = some s' → Placed s')
      ∧ (∀ s s' : HashTable Value, s.rehash = some s' → Placed s')
      ∧ (∀ s s' : HashTable Value, s.rehash_down = some s' → Placed s') := by
  have hpow : 0 < 2 ^ w := Nat.pos_pow_of_pos w (by norm_num)
  obtain ⟨hp, _⟩ := reach_invariant w ops (HashTable.ctor c hash) t (placed_ctor c hash)
    (by simp [HashTable.ctor]) hrun
  have hh : t.hash_function = hash := run_hash_function w ops _ t hrun
  refine ⟨?_, ?_, ?_, ?_, ?_⟩
  · intro i x hx
    have := hp i x hx
    rw [hh] at this
    exact this
  · intro s s' v hs h
    exact placed_insert w s s' v hs h
  · intro s s' v hs h
    exact placed_remove w s s' v hs h
  · intro s s' h
    exact placed_rehash s s' h
  · intro s s' h
    exact placed_rehash_down s s' h

/-- Witness of `placement_invariant`: capacity 2, the identity hash, a run with
two growths and a shrink. -/
theorem placement_invariant_witness :
    (∀ i x, x ∈ (HashTable.mk [[2], [3]] (fun x : Nat => x) 0).table.getD i [] →
        (fun x : Nat => x) x % (HashTable.mk [[2], [3]] (fun x : Nat => x) 0).capacity = i)
      ∧ (∀ (s s' : HashTable Nat) (v : Nat), Placed s → s.insert 64 v = some s' → Placed s')
      ∧ (∀ (s s' : HashTable Nat) (v : Nat), Placed s → s.remove 64 v = some s' → Placed s')
      ∧ (∀ s s' : HashTable Nat, s.rehash = some s' → Placed s')
      ∧ (∀ s s' : HashTable Nat, s.rehash_down = some s' → Placed s') :=
  placement_invariant 64 2 (fun x : Nat => x)
    [Op.insert 1, Op.insert 2, Op.insert 3, Op.remove 1, Op.remove 7, Op.remove 8]
    (HashTable.mk [[2], [3]] (fun x : Nat => x) 0) (by decide) rfl

/-- Claim C18: on a table with at least one cell, `rehash` has a result with
exactly twice as many cells, the same counter and the same stored elements with
the same multiplicities; every element `x` is in the cell
`hash_function(x) % (2 * capacity)`, and the new cell `j` is the sub-list, in
the order of the old `values()`, of the elements of index `j`. -/
theorem rehash_grow (t : HashTable Value) (hc : 0 < t.capacity) :
    ∃ t', t.rehash = some t' ∧ t'.capacity = 2 * t.capacity ∧ t'.size = t.size
      ∧ t'.hash_function = t.hash_function
      ∧ t'.values.Perm t.values
      ∧ (∀ j x, x ∈ t'.table.getD j [] → t.hash_function x % (2 * t.capacity) = j)
      ∧ ∀ j, t'.table.getD j []
          = t.values.filter (fun x => decide (t.hash_function x % (2 * t.capacity) = j)) := by
  obtain ⟨t', r1, r2, r3, r4, r5⟩ := rehash_spec t hc
  have hperm : t'.values.Perm t.values := by
    rw [values_eq_flatten, values_eq_flatten]
    have h := r1
    simp only [HashTable.rehash, Option.map_eq_some'] at h
    obtain ⟨nt, hnt, rfl⟩ := h
    exact redistribute_perm _ _ _ _ hnt
  have hcell : ∀ j, t'.table.getD j []
      = t.values.filter (fun x => decide (t.hash_function x % (2 * t.capacity) = j)) := by
    intro j
    rw [r5 j, values_eq_flatten]
    show _ = List.filter (fun x => decide (t.hash_function x % (2 * t.table.length) = j)) _
    rw [Nat.mul_comm 2 t.table.length]
  refine ⟨t', r1, ?_, r3, r2, hperm, ?_, hcell⟩
  · show t'.table.length = 2 * t.table.length
    omega
  · intro j x hx
    rw [hcell j] at hx
    simpa using (List.mem_filter.mp hx).2

/-- Witness of `rehash_grow`: three cells holding 3, 6, 1, 4 and 2 under the
identity hash. -/
theorem rehash_grow_witness :
    ∃ t', (HashTable.mk [[3, 6], [1, 4], [2]] (fun x : Nat => x) 5).rehash = some t'
      ∧ t'.capacity = 2 * (HashTable.mk [[3, 6], [1, 4], [2]] (fun x : Nat => x) 5).capacity
      ∧ t'.size = (HashTable.mk [[3, 6], [1, 4], [2]] (fun x : Nat => x) 5).size
      ∧ t'.hash_function = (HashTable.mk [[3, 6], [1, 4], [2]] (fun x : Nat => x) 5).hash_function
      ∧ t'.values.Perm (HashTable.mk [[3, 6], [1, 4], [2]] (fun x : Nat => x) 5).values
      ∧ (∀ j x, x ∈ t'.table.getD j [] →
          (HashTable.mk [[3, 6], [1, 4], [2]] (fun x : Nat => x) 5).hash_function x
            % (2 * (HashTable.mk [[3, 6], [1, 4], [2]] (fun x : Nat => x) 5).capacity) = j)
      ∧ ∀ j, t'.table.getD j []
          = (HashTable.mk [[3, 6], [1, 4], [2]] (fun x : Nat => x) 5).values.filter
              (fun x => decide
                ((HashTable.mk [[3, 6], [1, 4], [2]] (fun x : Nat => x) 5).hash_function x
                  % (2 * (HashTable.mk [[3, 6], [1, 4], [2]] (fun x : Nat => x) 5).capacity) = j)) :=
  rehash_grow (HashTable.mk [[3, 6], [1, 4], [2]] (fun x : Nat => x) 5) (by decide)

/-- Claim C19: on a table with at least one cell and the placement invariant,
`find(v)` has a result, and it is true exactly when some element of `values()`
is equal to `v`: the scan of the one cell `hash_function(v) % capacity` gives the
same answer as the scan of every cell. -/
theorem find_iff_stored [DecidableEq Value] (t : HashTable Value) (v : Value)
    (hc : 0 < t.capacity) (hp : Placed t) :
    t.find v = some (t.storedAnywhere v)
      ∧ (t.find v = some true ↔ ∃ x ∈ t.values, x = v) := by
  have h := find_eq_mem t v hc hp
  have hs : t.storedAnywhere v = decide (v ∈ t.values) := by
    unfold HashTable.storedAnywhere
    by_cases hm : v ∈ t.values
    · simp only [hm, decide_True, List.any_eq_true, decide_eq_true_eq]
      exact ⟨v, hm, rfl⟩
    · simp only [hm, decide_False, List.any_eq_false, decide_eq_true_eq]
      intro x hx e
      subst e
      exact hm hx
  refine ⟨by rw [h, hs], ?_⟩
  rw [h]
  simp

/-- Witness of `find_iff_stored`: four cells under the identity hash, the value
6 in the cell 2. -/
theorem find_iff_stored_witness :
    (HashTable.mk [[4], [1, 5], [6], []] (fun x : Nat => x) 4).find 6
        = some ((HashTable.mk [[4], [1, 5], [6], []] (fun x : Nat => x) 4).storedAnywhere 6)
      ∧ ((HashTable.mk [[4], [1, 5], [6], []] (fun x : Nat => x) 4).find 6 = some true
        ↔ ∃ x ∈ (HashTable.mk [[4], [1, 5], [6], []] (fun x : Nat => x) 4).values, x = 6) :=
  find_iff_stored (HashTable.mk [[4], [1, 5], [6], []] (fun x : Nat => x) 4) 6 (by decide)
    (placed_of_cells _ (by decide))

/-- Claim C14: on a table with at least 2 cells and the placement invariant,
`remove(v)` has a result whose `values()` are, up to the order, the old
`values()` without the elements equal to `v`: `v` is not stored any more, every
other element keeps its multiplicity (also through a shrink), and `find(x)` is
unchanged for every `x` different from `v`. -/
theorem remove_all_copies [DecidableEq Value] (w : Nat) (t : HashTable Value) (v : Value)
    (hcap : 2 ≤ t.capacity) (hp : Placed t) :
    ∃ t', t.remove w v = some t'
      ∧ t'.values.Perm (t.values.filter (fun elem => !decide (elem = v)))
      ∧ t'.values.count v = 0
      ∧ (∀ x, x ≠ v → t'.values.count x = t.values.count x)
      ∧ ∀ x, x ≠ v → t'.find x = t.find x := by
  obtain ⟨t', ht'⟩ := remove_defined w t v hcap
  have hperm := values_after_remove w t t' v hp ht'
  have hp' := placed_remove w t t' v hp ht'
  obtain ⟨_, _, _, r4, r5⟩ := remove_some w t t' v ht'
  have hlen : 0 < t'.table.length := by
    have h2 : 2 ≤ t.table.length := hcap
    cases hs : shrinkNeeded ((t.current_size + 2 ^ w - 1) % 2 ^ w) t.table.length with
    | true => rw [(r4 hs).1]; omega
    | false => rw [r5 hs, length_remove_if]; omega
  refine ⟨t', ht', hperm, ?_, ?_, ?_⟩
  · rw [hperm.count_eq v]
    apply List.count_eq_zero.mpr
    intro hm
    have := (List.mem_filter.mp hm).2
    simp at this
  · intro x hx
    rw [hperm.count_eq x]
    exact List.count_filter (by simpa using hx)
  · intro x hx
    have h2 : 2 ≤ t.table.length := hcap
    rw [find_eq_mem t' x hlen hp', find_eq_mem t x (by omega) hp]
    congr 1
    apply decide_eq_decide.mpr
    rw [hperm.mem_iff, List.mem_filter]
    constructor
    · intro h; exact h.1
    · intro h; exact ⟨h, by simpa using hx⟩

/-- Witness of `remove_all_copies`: four cells under the identity hash, the
value 5 stored twice; its removal triggers the shrink to two cells. -/
theorem remove_all_copies_witness :
    ∃ t', (HashTable.mk [[4], [5, 1, 5], [], []] (fun x : Nat => x) 1).remove 64 5 = some t'
      ∧ t'.values.Perm ((HashTable.mk [[4], [5, 1, 5], [], []] (fun x : Nat => x) 1).values.filter
          (fun elem => !decide (elem = 5)))
      ∧ t'.values.count 5 = 0
      ∧ (∀ x, x ≠ 5 → t'.values.count x
          = (HashTable.mk [[4], [5, 1, 5], [], []] (fun x : Nat => x) 1).values.count x)
      ∧ ∀ x, x ≠ 5 → t'.find x
          = (HashTable.mk [[4], [5, 1, 5], [], []] (fun x : Nat => x) 1).find x :=
  remove_all_copies 64 (HashTable.mk [[4], [5, 1, 5], [], []] (fun x : Nat => x) 1) 5
    (by decide)
    (placed_of_cells _ (by decide))

/-- Claim C16: for a positive initial capacity, any hash function and any list
`L`, the inserts of the elements of `L` into a fresh table have a result whose
`values()` is the concatenation, for the cell index `i` from 0 to the final
capacity minus 1, of the elements `x` of `L` with `hash(x) % capacity = i`, in
their order in `L`; in particular `values()` is a permutation of `L`. -/
theorem values_after_inserts [DecidableEq Value] (w c : Nat) (hash : Value → Nat)
    (L : List Value) (hc : 0 < c) :
    ∃ t, run w (L.map Op.insert) (HashTable.ctor c hash) = some t
      ∧ t.values = ((List.range t.capacity).map
          (fun i => L.filter (fun x => decide (hash x % t.capacity = i)))).flatten
      ∧ t.values.Perm L := by
  obtain ⟨t, h1, h2, h3⟩ := run_inserts_cells w hash L (HashTable.ctor c hash) []
    (by simpa [HashTable.ctor] using hc) rfl
    (by intro j; simp [HashTable.ctor, getD_replicate_nil])
  simp only [List.nil_append] at h3
  have htb : t.table = (List.range t.table.length).map
      (fun i => L.filter (fun x => decide (hash x % t.table.length = i))) := by
    apply table_ext
    · simp
    · intro j
      rw [h3 j]
      by_cases hj : j < t.table.length
      · rw [List.getD_eq_getElem _ _ (by simpa using hj)]
        simp
      · rw [List.getD_eq_default _ _ (by simpa using hj)]
        apply List.filter_eq_nil_iff.mpr
        intro x _ hx
        have hx' : hash x % t.table.length = j := by simpa using hx
        have := Nat.mod_lt (hash x) h2
        omega
  refine ⟨t, h1, ?_, ?_⟩
  · rw [values_eq_flatten]
    show t.table.flatten = _
    exact congrArg List.flatten htb
  · rw [values_eq_flatten]
    exact perm_of_cells hash t.table L h2 h3

/-- Witness of `values_after_inserts`: capacity 2 and the identity hash; the
inserts of 5, 2, 7, 4, 2 grow the table to 8 cells. -/
theorem values_after_inserts_witness :
    ∃ t, run 64 ([5, 2, 7, 4, 2].map Op.insert) (HashTable.ctor 2 (fun x : Nat => x)) = some t
      ∧ t.values = ((List.range t.capacity).map
          (fun i => [5, 2, 7, 4, 2].filter (fun x => decide ((fun x : Nat => x) x % t.capacity = i)))).flatten
      ∧ t.values.Perm [5, 2, 7, 4, 2] :=
  values_after_inserts 64 2 (fun x : Nat => x) [5, 2, 7, 4, 2] (by decide)

/-- Claim C12, evaluated on the code: `remove` of a value that is not stored
leaves the stored elements as they are and still decrements the counter. On a
table with at least 2 cells, the placement invariant and `size()` equal to the
number of stored elements, `size()` is different from the number of stored
elements after such a call. -/
theorem remove_absent_breaks_count [DecidableEq Value] (w : Nat) (t : HashTable Value)
    (v : Value) (hw : 1 ≤ w) (hcap : 2 ≤ t.capacity) (hp : Placed t)
    (hcount : t.size = t.values.length) (hlt : t.size < 2 ^ w) (hv : v ∉ t.values) :
    ∃ t', t.remove w v = some t' ∧ t'.values.Perm t.values
      ∧ t'.size = (t.size + 2 ^ w - 1) % 2 ^ w
      ∧ t'.size ≠ t'.values.length := by
  obtain ⟨t', ht'⟩ := remove_defined w t v hcap
  have hperm := values_after_remove w t t' v hp ht'
  have hfil : t.values.filter (fun elem => !decide (elem = v)) = t.values := by
    apply List.filter_eq_self.mpr
    intro x hx
    have : ¬ x = v := fun e => hv (e ▸ hx)
    simp [this]
  rw [hfil] at hperm
  obtain ⟨_, _, r3, _, _⟩ := remove_some w t t' v ht'
  refine ⟨t', ht', hperm, r3, ?_⟩
  show t'.current_size ≠ t'.values.length
  rw [hperm.length_eq, r3, ← hcount]
  have hs : t.size = t.current_size := rfl
  have h2 : 2 ≤ 2 ^ w := by
    calc 2 = 2 ^ 1 := by norm_num
      _ ≤ 2 ^ w := Nat.pow_le_pow_right (by norm_num) hw
  rw [hs] at hlt ⊢
  by_cases h0 : t.current_size = 0
  · rw [h0, Nat.zero_add, Nat.mod_eq_of_lt (by omega)]
    omega
  · rw [decrement_eq _ w (by omega) hlt]
    omega

/-- Witness of `remove_absent_breaks_count`: the table constructed with 4 cells
after `insert(1)`, on which `remove(2)` is called. -/
theorem remove_absent_breaks_count_witness :
    ∃ t', (HashTable.mk [[], [1], [], []] (fun x : Nat => x) 1).remove 64 2 = some t'
      ∧ t'.values.Perm (HashTable.mk [[], [1], [], []] (fun x : Nat => x) 1).values
      ∧ t'.size = ((HashTable.mk [[], [1], [], []] (fun x : Nat => x) 1).size + 2 ^ 64 - 1) % 2 ^ 64
      ∧ t'.size ≠ t'.values.length :=
  remove_absent_breaks_count 64 (HashTable.mk [[], [1], [], []] (fun x : Nat => x) 1) 2
    (by decide) (by decide) (placed_of_cells _ (by decide)) (by decide) (by decide) (by decide)

/-- Claim C15, evaluated on the code: on a table constructed with capacity 1,
after `insert(a)` the call `remove(b)` for another value `b` decrements the
counter to 0, calls `rehash_down` with the new size `1 / 2 = 0` while `a` is
still stored, and has no defined result (remainder by zero). This holds for
every hash function, every two different values and every width of `size_t` of
at least one bit. -/
theorem remove_undefined_at_capacity_one [DecidableEq Value] (w : Nat) (hw : 1 ≤ w)
    (hash : Value → Nat) (a b : Value) (hab : a ≠ b) :
    ∃ t, run w [Op.insert a] (HashTable.ctor 1 hash) = some t
      ∧ t.capacity = 1 ∧ t.size = 1 ∧ t.values = [a]
      ∧ t.remove w b = none := by
  have h2 : (1 : Nat) < 2 ^ w := Nat.one_lt_two_pow (by omega)
  have hg : growNeeded 0 1 = false := by decide
  have hs : shrinkNeeded 0 1 = true := by decide
  have hcnt : (1 + 2 ^ w - 1) % 2 ^ w = 0 := by
    rw [Nat.add_sub_cancel_left]; exact Nat.mod_self _
  have hne : ¬ a = b := hab
  refine ⟨{ table := [[a]], hash_function := hash, current_size := 1 }, ?_, rfl, rfl, rfl, ?_⟩
  · simp [run, Op.apply, HashTable.insert, HashTable.ctor, hg, Nat.mod_one, emplace_back,
      updateCell, Nat.mod_eq_of_lt h2]
  · have hrem : remove_if [[a]] 0 b = [[a]] := by
      simp [remove_if, updateCell, hne]
    unfold HashTable.remove
    simp only [List.length_singleton, Nat.mod_one, hrem, hcnt, hs, if_true,
      HashTable.rehash_down]
    rw [redistribute_zero]
    simp

/-- Witness of `remove_undefined_at_capacity_one`: a 64-bit `size_t`, the
identity hash, `insert(5)` followed by `remove(7)`. -/
theorem remove_undefined_at_capacity_one_witness :
    ∃ t, run 64 [Op.insert 5] (HashTable.ctor 1 (fun x : Nat => x)) = some t
      ∧ t.capacity = 1 ∧ t.size = 1 ∧ t.values = [5]
      ∧ t.remove 64 7 = none :=
  remove_undefined_at_capacity_one 64 (by decide) (fun x : Nat => x) 5 7 (by decide)

/-- The counter after `remove(v)`: on every table with at least 2 cells the call
has a result, and in every result `size()` is the old `size()` minus 1 modulo
`2 ^ w`, whatever was deleted. Inserting `v` twice into a fresh table and
removing it once leaves `size()` 1 and no stored value; `remove` on a table with
`size()` 0 leaves `size()` `2 ^ w - 1`. -/
theorem remove_decrements [DecidableEq Value] (w : Nat) (hw : 2 ≤ w) :
    (∀ (t : HashTable Value) (v : Value), 2 ≤ t.capacity →
        ∃ t', t.remove w v = some t' ∧ t'.size = (t.size + 2 ^ w - 1) % 2 ^ w)
      ∧ (∀ (t t' : HashTable Value) (v : Value), t.remove w v = some t' →
        t'.size = (t.size + 2 ^ w - 1) % 2 ^ w)
      ∧ (∀ n : Nat, 1 ≤ n → n < 2 ^ w → (n + 2 ^ w - 1) % 2 ^ w = n - 1)
      ∧ (∀ (c : Nat) (hash : Value → Nat) (v : Value), 0 < c →
        ∃ t, run w [Op.insert v, Op.insert v, Op.remove v] (HashTable.ctor c hash) = some t
          ∧ t.size = 1 ∧ t.values = [])
      ∧ (∀ (t : HashTable Value) (v : Value), t.size = 0 → 0 < t.capacity →
        t.capacity ≤ 2 ^ w →
        ∃ t', t.remove w v = some t' ∧ t'.size = 2 ^ w - 1 ∧ t'.capacity = t.capacity) := by
  have h4 : 4 ≤ 2 ^ w := by
    calc 4 = 2 ^ 2 := by norm_num
      _ ≤ 2 ^ w := Nat.pow_le_pow_right (by norm_num) hw
  refine ⟨?_, ?_, ?_, ?_, ?_⟩
  · intro t v hcap
    obtain ⟨t', ht'⟩ := remove_defined w t v hcap
    exact ⟨t', ht', (remove_some w t t' v ht').2.2.1⟩
  · intro t t' v h
    exact (remove_some w t t' v h).2.2.1
  · intro n h1 hn
    exact decrement_eq n w h1 hn
  · intro c hash v hc
    have hc0 : 0 < (HashTable.ctor c hash : HashTable Value).table.length := by
      simpa [HashTable.ctor] using hc
    obtain ⟨t1, a1, a2, a3, a4, _⟩ := insert_spec w (HashTable.ctor c hash) v hc0
    have hlen0 : (HashTable.ctor c hash : HashTable Value).table.length = c := by
      simp [HashTable.ctor]
    have hcs0 : (HashTable.ctor c hash : HashTable Value).current_size = 0 := rfl
    rw [hlen0, hcs0, growNeeded_zero c hc] at a4
    simp only [Bool.false_eq_true, if_false] at a4
    rw [hcs0, Nat.zero_add, Nat.mod_eq_of_lt (by omega)] at a3
    obtain ⟨t2, b1, b2, b3, b4, _⟩ := insert_spec w t1 v (by omega)
    rw [a3, Nat.mod_eq_of_lt (by omega)] at b3
    rw [a3, a4] at b4
    have hcap2 : 2 ≤ t2.table.length := by
      rw [b4]
      by_cases hc1 : c = 1
      · subst hc1
        have : growNeeded 1 1 = true := by decide
        rw [if_pos this]
      · split <;> omega
    obtain ⟨t3, ht3⟩ := remove_defined w t2 v hcap2
    have hp2 : Placed t2 :=
      placed_insert w t1 t2 v (placed_insert w _ t1 v (placed_ctor c hash) a1) b1
    have hcells1 := insert_cells w hash (HashTable.ctor c hash) t1 v [] rfl
      (by intro j; simp [HashTable.ctor, getD_replicate_nil]) a1
    have hcells2 := insert_cells w hash t1 t2 v ([] ++ [v]) hcells1.1 hcells1.2 b1
    have hall : ∀ x ∈ t2.values, x = v := by
      intro x hx
      rw [values_eq_flatten] at hx
      obtain ⟨i, _, hi⟩ := exists_getD_of_mem_flatten _ _ hx
      rw [hcells2.2 i] at hi
      have := (List.mem_filter.mp hi).1
      simpa using this
    have hperm := values_after_remove w t2 t3 v hp2 ht3
    have hnil : t2.values.filter (fun elem => !decide (elem = v)) = [] := by
      apply List.filter_eq_nil_iff.mpr
      intro x hx
      simp [hall x hx]
    rw [hnil] at hperm
    refine ⟨t3, ?_, ?_, List.Perm.eq_nil hperm⟩
    · simp only [run, Op.apply, a1, b1, ht3, Option.some_bind]
    · show t3.current_size = 1
      rw [(remove_some w t2 t3 v ht3).2.2.1, b3]
      exact decrement_eq 2 w (by omega) (by omega)
  · intro t v hs hc hcw
    have hs0 : t.current_size = 0 := hs
    have hlen : 0 < t.table.length := hc
    have hno : shrinkNeeded ((t.current_size + 2 ^ w - 1) % 2 ^ w) t.table.length = false := by
      rw [hs0, Nat.zero_add, Nat.mod_eq_of_lt (by omega)]
      exact shrinkNeeded_wrapped w _ (by omega) hcw
    have h0 : ¬ t.table.length = 0 := by omega
    refine ⟨{ t with
        table := remove_if t.table (t.hash_function v % t.table.length) v
        current_size := (t.current_size + 2 ^ w - 1) % 2 ^ w }, ?_, ?_, ?_⟩
    · unfold HashTable.remove
      rw [if_neg h0]
      simp only [length_remove_if, hno, Bool.false_eq_true, if_false]
    · show (t.current_size + 2 ^ w - 1) % 2 ^ w = 2 ^ w - 1
      rw [hs0, Nat.zero_add, Nat.mod_eq_of_lt (by omega)]
    · show (remove_if t.table (t.hash_function v % t.table.length) v).length = t.table.length
      exact length_remove_if _ _ _

/-- The statement of `remove_decrements` for a 64-bit `size_t` and values that
are natural numbers. -/
theorem remove_decrements_witness :
    (∀ (t : HashTable Nat) (v : Nat), 2 ≤ t.capacity →
        ∃ t', t.remove 64 v = some t' ∧ t'.size = (t.size + 2 ^ 64 - 1) % 2 ^ 64)
      ∧ (∀ (t t' : HashTable Nat) (v : Nat), t.remove 64 v = some t' →
        t'.size = (t.size + 2 ^ 64 - 1) % 2 ^ 64)
      ∧ (∀ n : Nat, 1 ≤ n → n < 2 ^ 64 → (n + 2 ^ 64 - 1) % 2 ^ 64 = n - 1)
      ∧ (∀ (c : Nat) (hash : Nat → Nat) (v : Nat), 0 < c →
        ∃ t, run 64 [Op.insert v, Op.insert v, Op.remove v] (HashTable.ctor c hash) = some t
          ∧ t.size = 1 ∧ t.values = [])
      ∧ (∀ (t : HashTable Nat) (v : Nat), t.size = 0 → 0 < t.capacity →
        t.capacity ≤ 2 ^ 64 →
        ∃ t', t.remove 64 v = some t' ∧ t'.size = 2 ^ 64 - 1 ∧ t'.capacity = t.capacity) :=
  remove_decrements 64 (by decide)

/-- Claim C17 as stated fails in two places. The counter is a `size_t`: after
`remove(9)` on a fresh table of 4 cells it is `2 ^ 64 - 1`, and the next
`insert` leaves 0, not `n + 1`. And the growth test is a `double` comparison:
for the capacity 905544803348773 and the count 633881362344141 it holds although
`10 * n < 7 * c`. -/
theorem insert_step_counterexample :
    (∃ t t', run 64 [Op.remove 9] (HashTable.ctor 4 (fun x : Nat => x)) = some t
        ∧ 0 < t.capacity ∧ t.size = 2 ^ 64 - 1 ∧ t.insert 64 1 = some t'
        ∧ t'.size = 0 ∧ t'.size ≠ t.size + 1)
      ∧ growNeeded 633881362344141 905544803348773 = true
      ∧ ¬ 7 * 905544803348773 ≤ 10 * 633881362344141 :=
  ⟨⟨_, _, rfl, by decide, rfl, rfl, rfl, by decide⟩, by decide, by decide⟩

/-- Claim C17, amended: on a table with `c` cells, `0 < c ≤ 2 ^ 48`, and counter
`n`, `insert(v)` has a result with `2 * c` cells if `10 * n ≥ 7 * c` and `c`
cells otherwise (the test uses the counter before the insertion); the counter
becomes `(n + 1) mod 2 ^ w`, which is `n + 1` unless `n = 2 ^ w - 1`; `v` is the
last element of the cell `hash_function(v) % capacity` of the result; after a
growth the cell `j` is the old elements of index `j` (modulo `2 * c`) followed
by `v` where it belongs; without growth every cell is unchanged except the cell
of `v`, which is its old content followed by `v` (no duplicate check). -/
theorem insert_step (w : Nat) (t : HashTable Value) (v : Value) (hc : 0 < t.capacity)
    (hcap : t.capacity ≤ 2 ^ 48) :
    ∃ t', t.insert w v = some t'
      ∧ t'.capacity = (if 7 * t.capacity ≤ 10 * t.size then 2 * t.capacity else t.capacity)
      ∧ t'.size = (t.size + 1) % 2 ^ w
      ∧ (t.size + 1 < 2 ^ w → t'.size = t.size + 1)
      ∧ (∃ front, t'.table.getD (t.hash_function v % t'.capacity) [] = front ++ [v])
      ∧ (7 * t.capacity ≤ 10 * t.size → ∀ j, t'.table.getD j []
          = t.values.filter (fun x => decide (t.hash_function x % (2 * t.capacity) = j))
            ++ (if j = t.hash_function v % (2 * t.capacity) then [v] else []))
      ∧ (¬ 7 * t.capacity ≤ 10 * t.size → ∀ j, t'.table.getD j []
          = t.table.getD j [] ++ (if j = t.hash_function v % t.capacity then [v] else [])) := by
  obtain ⟨t', r1, _, r3, r4, r5⟩ := insert_spec w t v hc
  have hiff := growNeeded_iff t.current_size t.table.length hcap
  have hlen : t'.table.length
      = (if 7 * t.table.length ≤ 10 * t.current_size then 2 * t.table.length
          else t.table.length) := by
    rw [r4]
    by_cases hg : 7 * t.table.length ≤ 10 * t.current_size
    · rw [if_pos (hiff.mpr hg), if_pos hg, Nat.mul_comm]
    · rw [if_neg (fun h => hg (hiff.mp h)), if_neg hg]
  refine ⟨t', r1, hlen, r3, ?_, ?_, ?_, ?_⟩
  · intro h
    show t'.current_size = t.current_size + 1
    rw [r3]
    exact Nat.mod_eq_of_lt h
  · have h := r5 (t.hash_function v % t'.table.length)
    rw [if_pos rfl] at h
    exact ⟨_, h⟩
  · intro hg j
    have hg' : 7 * t.table.length ≤ 10 * t.current_size := hg
    rw [if_pos hg'] at hlen
    rw [r5 j, if_pos (hiff.mpr hg'), values_eq_flatten, hlen]
    show _ = List.filter (fun x => decide (t.hash_function x % (2 * t.table.length) = j))
      t.table.flatten ++ (if j = t.hash_function v % (2 * t.table.length) then [v] else [])
    rw [Nat.mul_comm 2 t.table.length]
  · intro hg j
    have hg' : ¬ 7 * t.table.length ≤ 10 * t.current_size := hg
    rw [if_neg hg'] at hlen
    rw [r5 j, if_neg (fun h => hg' (hiff.mp h)), hlen]
    rfl

/-- Witness of `insert_step`: three cells under the identity hash with the
counter 3; `insert(7)` grows the table to six cells. -/
theorem insert_step_witness :
    ∃ t', (HashTable.mk [[3], [1], [2]] (fun x : Nat => x) 3).insert 64 7 = some t'
      ∧ t'.capacity = (if 7 * (HashTable.mk [[3], [1], [2]] (fun x : Nat => x) 3).capacity
            ≤ 10 * (HashTable.mk [[3], [1], [2]] (fun x : Nat => x) 3).size
          then 2 * (HashTable.mk [[3], [1], [2]] (fun x : Nat => x) 3).capacity
          else (HashTable.mk [[3], [1], [2]] (fun x : Nat => x) 3).capacity)
      ∧ t'.size = ((HashTable.mk [[3], [1], [2]] (fun x : Nat => x) 3).size + 1) % 2 ^ 64
      ∧ ((HashTable.mk [[3], [1], [2]] (fun x : Nat => x) 3).size + 1 < 2 ^ 64 →
          t'.size = (HashTable.mk [[3], [1], [2]] (fun x : Nat => x) 3).size + 1)
      ∧ (∃ front, t'.table.getD
          ((HashTable.mk [[3], [1], [2]] (fun x : Nat => x) 3).hash_function 7 % t'.capacity) []
          = front ++ [7])
      ∧ (7 * (HashTable.mk [[3], [1], [2]] (fun x : Nat => x) 3).capacity
            ≤ 10 * (HashTable.mk [[3], [1], [2]] (fun x : Nat => x) 3).size →
          ∀ j, t'.table.getD j []
            = (HashTable.mk [[3], [1], [2]] (fun x : Nat => x) 3).values.filter
                (fun x => decide
                  ((HashTable.mk [[3], [1], [2]] (fun x : Nat => x) 3).hash_function x
                    % (2 * (HashTable.mk [[3], [1], [2]] (fun x : Nat => x) 3).capacity) = j))
              ++ (if j = (HashTable.mk [[3], [1], [2]] (fun x : Nat => x) 3).hash_function 7
                    % (2 * (HashTable.mk [[3], [1], [2]] (fun x : Nat => x) 3).capacity)
                  then [7] else []))
      ∧ (¬ 7 * (HashTable.mk [[3], [1], [2]] (fun x : Nat => x) 3).capacity
            ≤ 10 * (HashTable.mk [[3], [1], [2]] (fun x : Nat => x) 3).size →
          ∀ j, t'.table.getD j []
            = (HashTable.mk [[3], [1], [2]] (fun x : Nat => x) 3).table.getD j []
              ++ (if j = (HashTable.mk [[3], [1], [2]] (fun x : Nat => x) 3).hash_function 7
                    % (HashTable.mk [[3], [1], [2]] (fun x : Nat => x) 3).capacity
                  then [7] else [])) :=
  insert_step 64 (HashTable.mk [[3], [1], [2]] (fun x : Nat => x) 3) 7 (by decide) (by decide)

/-- Claim C20: for a positive initial capacity, any hash function and any
sequence of inserts into a fresh table (no longer than a `size_t` can count),
the run has a result; `size()` is the number of inserts; the capacity is the
initial capacity times 2 to the number of growths, and there is at most one
growth per insert; and, as long as the capacity is below `2 ^ 53`,
`10 * (count - 1) < 7 * capacity`, so that the load factor is at most
`0.7 + 1 / capacity`. -/
theorem insert_only_load_bound [DecidableEq Value] (w c0 : Nat) (hash : Value → Nat)
    (L : List Value) (hc : 0 < c0) (hw : L.length < 2 ^ w) (hL : L.length ≤ 2 ^ 53) :
    ∃ t, run w (L.map Op.insert) (HashTable.ctor c0 hash) = some t
      ∧ t.size = L.length
      ∧ t.capacity = c0 * 2 ^ growCount w L (HashTable.ctor c0 hash)
      ∧ growCount w L (HashTable.ctor c0 hash) ≤ L.length
      ∧ (∀ (s s' : HashTable Value) (v : Value), s.insert w v = some s' →
          s'.capacity = s.capacity ∨ s'.capacity = 2 * s.capacity)
      ∧ (t.capacity < 2 ^ 53 →
          10 * (t.size - 1) < 7 * t.capacity ∧ 10 * t.size ≤ 7 * t.capacity + 10) := by
  have hlen0 : (HashTable.ctor c0 hash : HashTable Value).table.length = c0 := by
    simp [HashTable.ctor]
  have hcs0 : (HashTable.ctor c0 hash : HashTable Value).current_size = 0 := rfl
  obtain ⟨t, h1, _, h3, h4⟩ := run_inserts w L (HashTable.ctor c0 hash)
    (by rw [hlen0]; exact hc) (by rw [hcs0]; omega)
  obtain ⟨g1, g2⟩ := run_inserts_growCount w L _ t h1
  rw [hlen0] at g1
  rw [hcs0, Nat.zero_add] at h3
  refine ⟨t, h1, h3, g1, g2, ?_, ?_⟩
  · intro s s' v h
    have := insert_capacity w s s' v h
    show s'.table.length = s.table.length ∨ s'.table.length = 2 * s.table.length
    rw [this]
    split
    · right; simp [Nat.mul_comm]
    · left; simp
  · intro hfin
    have hb := run_inserts_bound w L _ t h1 hfin (by rw [hlen0]; omega)
      (by rw [hcs0]; omega) (by rw [hcs0]; omega) (by rw [hcs0]; omega)
    have hs : t.size = t.current_size := rfl
    have hcp : t.capacity = t.table.length := rfl
    rw [hs, hcp]
    omega

/-- Witness of `insert_only_load_bound`: capacity 1, the identity hash and five
inserts, which grow the table three times. -/
theorem insert_only_load_bound_witness :
    ∃ t, run 64 ([1, 2, 3, 4, 5].map Op.insert) (HashTable.ctor 1 (fun x : Nat => x)) = some t
      ∧ t.size = [1, 2, 3, 4, 5].length
      ∧ t.capacity = 1 * 2 ^ growCount 64 [1, 2, 3, 4, 5] (HashTable.ctor 1 (fun x : Nat => x))
      ∧ growCount 64 [1, 2, 3, 4, 5] (HashTable.ctor 1 (fun x : Nat => x))
          ≤ [1, 2, 3, 4, 5].length
      ∧ (∀ (s s' : HashTable Nat) (v : Nat), s.insert 64 v = some s' →
          s'.capacity = s.capacity ∨ s'.capacity = 2 * s.capacity)
      ∧ (t.capacity < 2 ^ 53 →
          10 * (t.size - 1) < 7 * t.capacity ∧ 10 * t.size ≤ 7 * t.capacity + 10) :=
  insert_only_load_bound 64 1 (fun x : Nat => x) [1, 2, 3, 4, 5] (by decide) (by decide)
    (by decide)

end Hesh
